import Mathlib

/-!
# nats-micro-hackernews: ingestion and windowed ranking

A shallow embedding of `src/handlers.go` together with the part of the Go
standard library that `sortByScore` relies on (`sort.Slice`, i.e. the
pattern-defeating quicksort of `sort/zsortfunc.go`), and theorems about the
handlers.

Conventions of the embedding.

* A Go slice that is sorted in place through `Less(i, j)` / `Swap(i, j)` is a
  `List α` (its cells) together with the index range the routine works on.
  Every routine returns the new cells.
* Loops are structural recursions on a counter that is computed from the loop
  bounds, so every routine is total.
* `time.Time` is an instant in nanoseconds (`Int`).
* The message bus, the HTTP client, the JSON codec and the two JetStream
  stores are collaborators of the handlers: their answers are inputs of the
  embedded handlers.
* Embedded handlers: `processHackerNewsID`, `processFetchedIDs`,
  `processFetchedIDsReply`, `sortByScore` and `listByScoreCount`.  The two
  handlers `handleFetchIDs` and `listFetchedIDs` are not needed below.

The file has four parts: the embedding of `sort.Slice`, the embedding of the
handlers, the predicates and example inputs used by the statements, and the
theorems (first about `sort.Slice`, then about the handlers).
-/

set_option linter.unusedSectionVars false

namespace GoSort

variable {α : Type} [Inhabited α]

/-! ## `sort.Slice` (Go standard library, `sort/slice.go`, `sort/zsortfunc.go`) -/

/-- The cell `data[i]` of a slice (the zero value out of range, where Go
panics; the sorting routines never get there). -/
def elem [Inhabited α] (data : List α) (i : Nat) : α := data.getD i default

/-- The method `Swap(i, j)` of `lessSwap`: exchanges cells `i` and `j`. -/
def swap [Inhabited α] (data : List α) (i j : Nat) : List α :=
  (data.set i (elem data j)).set j (elem data i)

/-- The loop `for j := i; j > a && data.Less(j, j-1); j-- { data.Swap(j, j-1) }`
of `insertionSort_func`, started at `j`. -/
def insertionSort_inner (less : α → α → Bool) (a : Nat) : Nat → List α → List α
  | 0, data => data
  | j + 1, data =>
    if decide (a < j + 1) && less (elem data (j + 1)) (elem data j) then
      insertionSort_inner less a j (swap data (j + 1) j)
    else data

/-- Go `insertionSort_func(data, a, b)`: the outer loop runs `i` over
`a+1, ..., b-1`. -/
def insertionSort_func (less : α → α → Bool) (data : List α) (a b : Nat) : List α :=
  (List.range' (a + 1) (b - (a + 1))).foldl (fun d i => insertionSort_inner less a i d) data

/-- The `for` loop of `siftDown_func`; `root` grows in every round and the
loop ends once `2*root+1 >= hi`, so `hi - lo` rounds are enough. -/
def siftDown_loop (less : α → α → Bool) (hi first : Nat) :
    Nat → Nat → List α → List α
  | 0, _, data => data
  | fuel + 1, root, data =>
    let child := 2 * root + 1
    if child ≥ hi then data
    else
      let child :=
        if decide (child + 1 < hi) && less (elem data (first + child)) (elem data (first + child + 1))
        then child + 1 else child
      if !less (elem data (first + root)) (elem data (first + child)) then data
      else siftDown_loop less hi first fuel child (swap data (first + root) (first + child))

/-- Go `siftDown_func(data, lo, hi, first)`. -/
def siftDown_func (less : α → α → Bool) (data : List α) (lo hi first : Nat) : List α :=
  siftDown_loop less hi first (hi - lo) lo data

/-- The loop `for i := (hi - 1) / 2; i >= 0; i-- { siftDown_func(data, i, hi, first) }`
of `heapSort_func`, started at `i`. -/
def heapSort_build (less : α → α → Bool) (hi first : Nat) : Nat → List α → List α
  | 0, data => siftDown_func less data 0 hi first
  | i + 1, data => heapSort_build less hi first i (siftDown_func less data (i + 1) hi first)

/-- The loop `for i := hi - 1; i >= 0; i-- { data.Swap(first, first+i);
siftDown_func(data, lo, i, first) }` of `heapSort_func`; the argument is `i + 1`. -/
def heapSort_pop (less : α → α → Bool) (first : Nat) : Nat → List α → List α
  | 0, data => data
  | i + 1, data =>
    heapSort_pop less first i (siftDown_func less (swap data first (first + i)) 0 i first)

/-- Go `heapSort_func(data, a, b)`. -/
def heapSort_func (less : α → α → Bool) (data : List α) (a b : Nat) : List α :=
  let first := a
  let hi := b - a
  heapSort_pop less first hi (heapSort_build less hi first ((hi - 1) / 2) data)

/-- The type `sortedHint` of `sort/sort.go`. -/
inductive sortedHint
  | unknownHint
  | increasingHint
  | decreasingHint
  deriving DecidableEq, Repr

/-- Go `order2_func(data, a, b, swaps)`; the counter `*swaps` is threaded
through as the third component. -/
def order2_func (less : α → α → Bool) (data : List α) (a b swaps : Nat) : Nat × Nat × Nat :=
  if less (elem data b) (elem data a) then (b, a, swaps + 1) else (a, b, swaps)

/-- Go `median_func(data, a, b, c, swaps)`: the index of the median and the
updated counter. -/
def median_func (less : α → α → Bool) (data : List α) (a b c swaps : Nat) : Nat × Nat :=
  let r1 := order2_func less data a b swaps
  let r2 := order2_func less data r1.2.1 c r1.2.2
  let r3 := order2_func less data r1.1 r2.1 r2.2.2
  (r3.2.1, r3.2.2)

/-- Go `medianAdjacent_func(data, a, swaps)`. -/
def medianAdjacent_func (less : α → α → Bool) (data : List α) (a swaps : Nat) : Nat × Nat :=
  median_func less data (a - 1) a (a + 1) swaps

/-- Go `choosePivot_func(data, a, b)`. -/
def choosePivot_func (less : α → α → Bool) (data : List α) (a b : Nat) : Nat × sortedHint :=
  let l := b - a
  let i := a + l / 4 * 1
  let j := a + l / 4 * 2
  let k := a + l / 4 * 3
  let r :=
    if l ≥ 8 then
      if l ≥ 50 then
        let ri := medianAdjacent_func less data i 0
        let rj := medianAdjacent_func less data j ri.2
        let rk := medianAdjacent_func less data k rj.2
        median_func less data ri.1 rj.1 rk.1 rk.2
      else median_func less data i j k 0
    else (j, 0)
  if r.2 = 0 then (r.1, sortedHint.increasingHint)
  else if r.2 = 4 * 3 then (r.1, sortedHint.decreasingHint)
  else (r.1, sortedHint.unknownHint)

/-- The loop `for i < j { data.Swap(i, j); i++; j-- }` of `reverseRange_func`. -/
def reverseRange_loop : Nat → Nat → Nat → List α → List α
  | 0, _, _, data => data
  | fuel + 1, i, j, data =>
    if i < j then reverseRange_loop fuel (i + 1) (j - 1) (swap data i j) else data

/-- Go `reverseRange_func(data, a, b)`. -/
def reverseRange_func (data : List α) (a b : Nat) : List α :=
  reverseRange_loop (b - a) a (b - 1) data

/-- The loop `for i < b && !data.Less(i, i-1) { i++ }` of
`partialInsertionSort_func`: the new value of `i`. -/
def partialInsertionSort_scan (less : α → α → Bool) (data : List α) (b : Nat) :
    Nat → Nat → Nat
  | 0, i => i
  | fuel + 1, i =>
    if decide (i < b) && !less (elem data i) (elem data (i - 1)) then
      partialInsertionSort_scan less data b fuel (i + 1)
    else i

/-- The loop `for j := i - 1; j >= 1; j-- { if !data.Less(j, j-1) { break };
data.Swap(j, j-1) }` of `partialInsertionSort_func`, started at `j`. -/
def partialInsertionSort_shiftLeft (less : α → α → Bool) : Nat → List α → List α
  | 0, data => data
  | j + 1, data =>
    if !less (elem data (j + 1)) (elem data j) then data
    else partialInsertionSort_shiftLeft less j (swap data (j + 1) j)

/-- The loop `for j := i + 1; j < b; j++ { if !data.Less(j, j-1) { break };
data.Swap(j, j-1) }` of `partialInsertionSort_func`, started at `j`. -/
def partialInsertionSort_shiftRight (less : α → α → Bool) (b : Nat) :
    Nat → Nat → List α → List α
  | 0, _, data => data
  | fuel + 1, j, data =>
    if j < b then
      if !less (elem data j) (elem data (j - 1)) then data
      else partialInsertionSort_shiftRight less b fuel (j + 1) (swap data j (j - 1))
    else data

/-- The loop `for j := 0; j < maxSteps; j++` of `partialInsertionSort_func`;
the first argument is the number of rounds left. -/
def partialInsertionSort_loop (less : α → α → Bool) (a b : Nat) :
    Nat → Nat → List α → List α × Bool
  | 0, _, data => (data, false)
  | steps + 1, i, data =>
    let i := partialInsertionSort_scan less data b (b - i) i
    if i = b then (data, true)
    else if b - a < 50 then (data, false)
    else
      let data := swap data i (i - 1)
      let data := if i - a ≥ 2 then partialInsertionSort_shiftLeft less (i - 1) data else data
      let data :=
        if b - i ≥ 2 then partialInsertionSort_shiftRight less b (b - (i + 1)) (i + 1) data
        else data
      partialInsertionSort_loop less a b steps i data

/-- Go `partialInsertionSort_func(data, a, b)`: the new cells and whether the
range is sorted at the end. -/
def partialInsertionSort_func (less : α → α → Bool) (data : List α) (a b : Nat) :
    List α × Bool :=
  partialInsertionSort_loop less a b 5 (a + 1) data

/-- Go `bits.Len(uint(x))`: the number of bits needed to write `x`. -/
def bitsLen_loop : Nat → Nat → Nat
  | 0, _ => 0
  | fuel + 1, x => if x = 0 then 0 else bitsLen_loop fuel (x / 2) + 1

/-- Go `bits.Len(uint(x))`. -/
def bitsLen (x : Nat) : Nat := bitsLen_loop x x

/-- Go `nextPowerOfTwo(length)`. -/
def nextPowerOfTwo (length : Nat) : Nat := 2 ^ bitsLen length

/-- Go `(*xorshift).Next` on a `uint64` state.  `breakPatterns_func` reduces
every draw below the length of the range, and no statement below depends on
the values drawn. -/
def xorshift_Next (r : Nat) : Nat :=
  let r := Nat.xor r ((r <<< 13) % 2 ^ 64)
  let r := Nat.xor r (r >>> 7)
  Nat.xor r ((r <<< 17) % 2 ^ 64)

/-- The loop `for i := 0; i < 3; i++` of `breakPatterns_func`; the first
argument counts the rounds left, `random` is the generator state.  Round `i`
exchanges the cell `idx + i`, for `idx = a + (length/4)*2 - 1`, with the cell
`a + other`. -/
def breakPatterns_loop (a length modulus idx : Nat) :
    Nat → Nat → Nat → List α → List α
  | 0, _, _, data => data
  | n + 1, i, random, data =>
    let random := xorshift_Next random
    let other := Nat.land random (modulus - 1)
    let other := if other ≥ length then other - length else other
    breakPatterns_loop a length modulus idx n (i + 1) random (swap data (idx + i) (a + other))

/-- Go `breakPatterns_func(data, a, b)`. -/
def breakPatterns_func (data : List α) (a b : Nat) : List α :=
  let length := b - a
  if length ≥ 8 then
    breakPatterns_loop a length (nextPowerOfTwo length) (a + (length / 4) * 2 - 1) 3 0 length data
  else data

/-- The loop `for i <= j && data.Less(i, a) { i++ }` of `partition_func`. -/
def partition_scanUp (less : α → α → Bool) (data : List α) (a j : Nat) : Nat → Nat → Nat
  | 0, i => i
  | fuel + 1, i =>
    if decide (i ≤ j) && less (elem data i) (elem data a) then partition_scanUp less data a j fuel (i + 1)
    else i

/-- The loop `for i <= j && !data.Less(j, a) { j-- }` of `partition_func`. -/
def partition_scanDown (less : α → α → Bool) (data : List α) (a i : Nat) : Nat → Nat → Nat
  | 0, j => j
  | fuel + 1, j =>
    if decide (i ≤ j) && !less (elem data j) (elem data a) then
      partition_scanDown less data a i fuel (j - 1)
    else j

/-- The second, unconditional `for` loop of `partition_func`: returns the cells
and the final `j`. -/
def partition_loop (less : α → α → Bool) (a : Nat) :
    Nat → Nat → Nat → List α → List α × Nat
  | 0, _, j, data => (data, j)
  | fuel + 1, i, j, data =>
    let i := partition_scanUp less data a j (j + 1 - i) i
    let j := partition_scanDown less data a i (j + 1 - i) j
    if i > j then (data, j)
    else partition_loop less a fuel (i + 1) (j - 1) (swap data i j)

/-- Go `partition_func(data, a, b, pivot)`: the cells, `newpivot` and
`alreadyPartitioned`. -/
def partition_func (less : α → α → Bool) (data : List α) (a b pivot : Nat) :
    List α × Nat × Bool :=
  let data := swap data a pivot
  let i := a + 1
  let j := b - 1
  let i := partition_scanUp less data a j (j + 1 - i) i
  let j := partition_scanDown less data a i (j + 1 - i) j
  if i > j then (swap data j a, j, true)
  else
    let data := swap data i j
    let r := partition_loop less a (j - i) (i + 1) (j - 1) data
    (swap r.1 r.2 a, r.2, false)

/-- The loop `for i <= j && !data.Less(a, i) { i++ }` of `partitionEqual_func`. -/
def partitionEqual_scanUp (less : α → α → Bool) (data : List α) (a j : Nat) :
    Nat → Nat → Nat
  | 0, i => i
  | fuel + 1, i =>
    if decide (i ≤ j) && !less (elem data a) (elem data i) then
      partitionEqual_scanUp less data a j fuel (i + 1)
    else i

/-- The loop `for i <= j && data.Less(a, j) { j-- }` of `partitionEqual_func`. -/
def partitionEqual_scanDown (less : α → α → Bool) (data : List α) (a i : Nat) :
    Nat → Nat → Nat
  | 0, j => j
  | fuel + 1, j =>
    if decide (i ≤ j) && less (elem data a) (elem data j) then
      partitionEqual_scanDown less data a i fuel (j - 1)
    else j

/-- The `for` loop of `partitionEqual_func`: returns the cells and the final `i`. -/
def partitionEqual_loop (less : α → α → Bool) (a : Nat) :
    Nat → Nat → Nat → List α → List α × Nat
  | 0, i, _, data => (data, i)
  | fuel + 1, i, j, data =>
    let i := partitionEqual_scanUp less data a j (j + 1 - i) i
    let j := partitionEqual_scanDown less data a i (j + 1 - i) j
    if i > j then (data, i)
    else partitionEqual_loop less a fuel (i + 1) (j - 1) (swap data i j)

/-- Go `partitionEqual_func(data, a, b, pivot)`: the cells and `newpivot`. -/
def partitionEqual_func (less : α → α → Bool) (data : List α) (a b pivot : Nat) :
    List α × Nat :=
  let data := swap data a pivot
  partitionEqual_loop less a (b - a) (a + 1) (b - 1) data

/-- Go `pdqsort_func(data, a, b, limit)`.  The first argument bounds the number
of loop rounds and nested calls; the range shrinks in each of them, so `b - a`
is enough.  `wasBalanced` and `wasPartitioned` are the two local variables of
the Go function, both `true` on entry. -/
def pdqsort_loop (less : α → α → Bool) :
    Nat → List α → Nat → Nat → Nat → Bool → Bool → List α
  | 0, data, _, _, _, _, _ => data
  | fuel + 1, data, a, b, limit, wasBalanced, wasPartitioned =>
    let length := b - a
    if length ≤ 12 then insertionSort_func less data a b
    else if limit = 0 then heapSort_func less data a b
    else
      let data1 := if !wasBalanced then breakPatterns_func data a b else data
      let limit1 := if !wasBalanced then limit - 1 else limit
      let ph := choosePivot_func less data1 a b
      let data2 :=
        if ph.2 = sortedHint.decreasingHint then reverseRange_func data1 a b else data1
      let pivot :=
        if ph.2 = sortedHint.decreasingHint then (b - 1) - (ph.1 - a) else ph.1
      let hint :=
        if ph.2 = sortedHint.decreasingHint then sortedHint.increasingHint else ph.2
      let pis :=
        if wasBalanced && wasPartitioned && decide (hint = sortedHint.increasingHint) then
          partialInsertionSort_func less data2 a b
        else (data2, false)
      if pis.2 then pis.1
      else
        let data3 := pis.1
        if decide (a > 0) && !less (elem data3 (a - 1)) (elem data3 pivot) then
          let pe := partitionEqual_func less data3 a b pivot
          pdqsort_loop less fuel pe.1 pe.2 b limit1 wasBalanced wasPartitioned
        else
          let pt := partition_func less data3 a b pivot
          let mid := pt.2.1
          let wasPartitioned1 := pt.2.2
          let leftLen := mid - a
          let rightLen := b - mid
          let balanceThreshold := length / 8
          if leftLen < rightLen then
            let data4 := pdqsort_loop less fuel pt.1 a mid limit1 true true
            pdqsort_loop less fuel data4 (mid + 1) b limit1
              (decide (leftLen ≥ balanceThreshold)) wasPartitioned1
          else
            let data4 := pdqsort_loop less fuel pt.1 (mid + 1) b limit1 true true
            pdqsort_loop less fuel data4 a mid limit1
              (decide (rightLen ≥ balanceThreshold)) wasPartitioned1

/-- Go `pdqsort_func(data, a, b, limit)`. -/
def pdqsort_func (less : α → α → Bool) (data : List α) (a b limit : Nat) : List α :=
  pdqsort_loop less (b - a) data a b limit true true

/-- Go `sort.Slice(x, less)` where `less(i, j)` compares the elements at `i`
and `j` of `x` with `lessElem`: the slice after the call. -/
def Slice (x : List α) (lessElem : α → α → Bool) : List α :=
  let length := x.length
  let limit := bitsLen length
  pdqsort_func lessElem x 0 length limit

end GoSort

namespace HackerNews

/-! ## The handlers of `src/handlers.go` -/

/-! A Go `time.Time` is an instant, an `Int` of nanoseconds since the Unix epoch. -/

/-- Go `time.Hour`, a `time.Duration` in nanoseconds. -/
def Hour : Int := 3600 * 1000000000

/-- Go `time.Unix(sec, nsec)`. -/
def timeUnix (sec nsec : Int) : Int := sec * 1000000000 + nsec

/-- The struct `HackerNewsPost`. -/
structure HackerNewsPost where
  ID : Int
  Title : String
  URL : String
  Points : Int
  Timestamp : Int
  deriving DecidableEq, Repr, Inhabited

/-- A value of a decoded `map[string]interface{}`.  A JSON number is decoded
into a `float64`; it is kept as the integer that the Go conversions
`int64(f)` and `int(f)` of the handlers yield. -/
inductive JSONValue
  | null
  | bool (b : Bool)
  | number (n : Int)
  | string (s : String)
  | array (items : List JSONValue)
  | object (fields : List (String × JSONValue))

/-- A decoded `map[string]interface{}`; indexing a missing key yields `nil`,
as in Go. -/
abbrev Record := String → JSONValue

/-- The error kinds of `strconv.NumError`. -/
inductive NumError
  | ErrSyntax
  | ErrRange
  deriving DecidableEq, Repr

/-- Go `strconv.Atoi(s)` on a 64-bit platform: the value and the error, if any.
On a syntax error the value is 0, on a range error it is the nearest `int64`. -/
def Atoi (s : String) : Int × Option NumError :=
  let cs := s.toList
  let neg := decide (cs.head? = some '-')
  let digits := match cs with
    | '-' :: r => r
    | '+' :: r => r
    | _ => cs
  if digits.isEmpty || !digits.all Char.isDigit then (0, some NumError.ErrSyntax)
  else
    let un : Nat := digits.foldl (fun n c => n * 10 + (c.toNat - 48)) 0
    if !neg && decide (un ≥ 2 ^ 63) then (2 ^ 63 - 1, some NumError.ErrRange)
    else if neg && decide (un > 2 ^ 63) then (-(2 ^ 63), some NumError.ErrRange)
    else (if neg then -(un : Int) else (un : Int), none)

/-- The collaborators of the handlers that are neither of the two stores: the
HTTP client, `encoding/json`, `fmt` and `time` formatting.  Errors are their
messages. -/
structure Env where
  /-- Go `http.Get(url)`: the response body. -/
  httpGet : String → Except String String
  /-- Go `json.NewDecoder(resp.Body).Decode(&post)` for `post map[string]interface{}`. -/
  decodeRecord : String → Except String Record
  /-- Go `fmt.Sprintf("%v", v)`. -/
  sprintV : JSONValue → String
  /-- Go `json.Marshal(p)` for a `HackerNewsPost`. -/
  marshalPost : HackerNewsPost → Except String String
  /-- Go `json.Unmarshal(b, &post)` for a `HackerNewsPost`. -/
  unmarshalPost : String → Except String HackerNewsPost
  /-- Go `json.MarshalIndent(posts, "", " ")`. -/
  marshalIndentPosts : List HackerNewsPost → Except String String
  /-- Go `json.Unmarshal(b, &posts)` for `posts []HackerNewsPost`. -/
  unmarshalPosts : String → Except String (List HackerNewsPost)
  /-- Go `json.Marshal(struct{Count, Posts})`. -/
  marshalTop : Nat → List HackerNewsPost → Except String String
  /-- Go `now.Format("2006-01-02")`. -/
  formatDate : Int → String

/-- The JetStream key-value bucket (`nats.KeyValue`): the live value of each
key, and the error that `Put` answers with, if any. -/
structure KeyValue where
  data : String → Option String
  putError : String → String → Option String

/-- Go `kv.Get(key)`. -/
def KeyValue.Get (kv : KeyValue) (key : String) : Except String String :=
  match kv.data key with
  | some v => Except.ok v
  | none => Except.error "nats: key not found"

/-- Go `kv.Put(key, value)`: an upsert of one key. -/
def KeyValue.Put (kv : KeyValue) (key value : String) : Except String KeyValue :=
  match kv.putError key value with
  | some e => Except.error e
  | none => Except.ok { kv with data := fun k => if k = key then some value else kv.data k }

/-- Go `nats.ObjectInfo`, the fields that are read. -/
structure ObjectInfo where
  Name : String
  ModTime : Int
  deriving DecidableEq, Repr

/-- The JetStream object store (`nats.ObjectStore`) as the handlers see it: the
answers of `List()` and `GetBytes(name)` and the error that
`PutString(name, data)` answers with, if any. -/
structure ObjectStore where
  list : Except String (List ObjectInfo)
  getBytes : String → Except String String
  putStringError : String → String → Option String

/-- What a handler sends back through `micro.Request`: `req.Respond(data)` or
`req.Error(code, description, nil)`. -/
inductive Reply
  | respond (data : String)
  | error (code description : String)
  deriving DecidableEq, Repr

/-- The run of a Go function: it returns, or a run-time panic stops it. -/
inductive Exec (α : Type)
  | done (a : α)
  | panicked (msg : String)

/-- The comparison `post["type"] == "story"` of an interface value with a string. -/
def isStory : JSONValue → Bool
  | JSONValue.string s => s == "story"
  | _ => false

/-- The comparison `v != nil` of an interface value. -/
def notNil : JSONValue → Bool
  | JSONValue.null => false
  | _ => true

/-- The name of the dynamic type of an interface value, as the Go run time
prints it. -/
def goTypeName : JSONValue → String
  | JSONValue.null => "nil"
  | JSONValue.bool _ => "bool"
  | JSONValue.number _ => "float64"
  | JSONValue.string _ => "string"
  | JSONValue.array _ => "[]interface {}"
  | JSONValue.object _ => "map[string]interface {}"

/-- The message of the run-time panic of a failed type assertion `v.(T)`. -/
def conversionPanic (v : JSONValue) (target : String) : String :=
  "interface conversion: interface {} is " ++ goTypeName v ++ ", not " ++ target

/-- The type assertion `v.(float64)`, followed by the conversion to `int64`;
`none` when the assertion panics. -/
def assertFloat64 : JSONValue → Option Int
  | JSONValue.number n => some n
  | _ => none

/-- The type assertion `v.(string)`; `none` when the assertion panics. -/
def assertString : JSONValue → Option String
  | JSONValue.string s => some s
  | _ => none

/-- The URL `fmt.Sprintf("https://hacker-news.firebaseio.com/v0/item/%d.json", id)`. -/
def itemURL (id : Int) : String :=
  "https://hacker-news.firebaseio.com/v0/item/" ++ toString id ++ ".json"

/-- The key `fmt.Sprintf("hn_post_%d", id)`. -/
def itemKey (id : Int) : String := "hn_post_" ++ toString id

/-- Go `processHackerNewsID(id, kv)`: the bucket afterwards and the returned
`([]byte, error)`. -/
def processHackerNewsID (env : Env) (id : Int) (kv : KeyValue) :
    Exec (KeyValue × Except String String) :=
  let url := itemURL id
  match env.httpGet url with
  | Except.error e => Exec.done (kv, Except.error ("failed to fetch post: " ++ e))
  | Except.ok body =>
    match env.decodeRecord body with
    | Except.error e => Exec.done (kv, Except.error ("failed to decode post: " ++ e))
    | Except.ok post =>
      if isStory (post "type") && notNil (post "title") && notNil (post "score") &&
          notNil (post "time") then
        match assertFloat64 (post "time") with
        | none => Exec.panicked (conversionPanic (post "time") "float64")
        | some sec =>
          let ts := timeUnix sec 0
          match assertString (post "title") with
          | none => Exec.panicked (conversionPanic (post "title") "string")
          | some title =>
            match assertFloat64 (post "score") with
            | none => Exec.panicked (conversionPanic (post "score") "float64")
            | some score =>
              let p : HackerNewsPost :=
                { ID := id, Title := title, URL := env.sprintV (post "url"), Points := score,
                  Timestamp := ts }
              match env.marshalPost p with
              | Except.error e => Exec.done (kv, Except.error ("failed to marshal post: " ++ e))
              | Except.ok pb =>
                let key := itemKey id
                match kv.Put key pb with
                | Except.error e =>
                  Exec.done (kv, Except.error ("failed to store post in KV: " ++ e))
                | Except.ok kv' => Exec.done (kv', Except.ok pb)
      else Exec.done (kv, Except.error ("skipped non-story item: " ++ toString id))

/-- Go `processFetchedIDs(kv)` applied to a request with payload `data`: the
bucket afterwards and the reply (there is none). -/
def processFetchedIDs (env : Env) (kv : KeyValue) (data : String) :
    Exec (KeyValue × Option Reply) :=
  let idStr := data
  let id := (Atoi idStr).1
  -- `if err != nil { slog.Error(...) }`: the handler goes on
  match processHackerNewsID env id kv with
  | Exec.panicked m => Exec.panicked m
  | Exec.done (kv', _) => Exec.done (kv', none)

/-- Go `processFetchedIDsReply(kv)` applied to a request with payload `data`:
the bucket afterwards and the reply. -/
def processFetchedIDsReply (env : Env) (kv : KeyValue) (data : String) :
    Exec (KeyValue × Option Reply) :=
  let idStr := data
  match Atoi idStr with
  | (_, some _) => Exec.done (kv, some (Reply.error "400" "Invalid ID"))
  | (id, none) =>
    match processHackerNewsID env id kv with
    | Exec.panicked m => Exec.panicked m
    | Exec.done (kv', Except.error e) => Exec.done (kv', some (Reply.error "500" e))
    | Exec.done (kv', Except.ok result) => Exec.done (kv', some (Reply.respond result))

/-- The body of the loop `for _, key := range keys` of `sortByScore`: the slice
`posts` after the round for `key`. -/
def collectStep (env : Env) (kv : KeyValue) (cutoff : Int) (posts : List HackerNewsPost)
    (key : String) : List HackerNewsPost :=
  match kv.Get key with
  | Except.error _ => posts
  | Except.ok value =>
    if key = "hn_ids_latest" then posts
    else
      match env.unmarshalPost value with
      | Except.error _ => posts
      | Except.ok post => if post.Timestamp > cutoff then posts ++ [post] else posts

/-- The loop `for _, key := range keys` of `sortByScore`: the slice `posts`
after it. -/
def collectPosts (env : Env) (kv : KeyValue) (cutoff : Int) (keys : List String) :
    List HackerNewsPost :=
  keys.foldl (collectStep env kv cutoff) []

/-- The closure `func(i, j int) bool { return posts[i].Points > posts[j].Points }`
given to `sort.Slice`, on the two elements. -/
def lessByPoints (p q : HackerNewsPost) : Bool := decide (p.Points > q.Points)

/-- Lines 156 to 181 of `sortByScore`: the slice `posts` that is serialised,
for the enumeration `keys` answered by `kv.Keys()` and the time `now`. -/
def rankedPosts (env : Env) (kv : KeyValue) (now : Int) (keys : List String) :
    List HackerNewsPost :=
  let cutoff := now + (-24) * Hour
  GoSort.Slice (collectPosts env kv cutoff keys) lessByPoints

/-- The name `fmt.Sprintf("hn_posts_%s", now.Format("2006-01-02"))`. -/
def objName (env : Env) (now : Int) : String := "hn_posts_" ++ env.formatDate now

/-- What `sortByScore` has done when it returns: its reply, and the object
`(name, data)` that `PutString` stored, if one was stored. -/
structure SortResult where
  reply : Reply
  written : Option (String × String)
  deriving DecidableEq, Repr

/-- Go `sortByScore(kv, obj)` applied to a request; `keys` is the answer of
`kv.Keys()` and `now` the value of `time.Now()`. -/
def sortByScore (env : Env) (keys : Except String (List String)) (kv : KeyValue)
    (obj : ObjectStore) (now : Int) : SortResult :=
  match keys with
  | Except.error _ =>
    { reply := Reply.error "500" "Failed to fetch latest HackerNews IDs", written := none }
  | Except.ok keys =>
    let posts := rankedPosts env kv now keys
    match env.marshalIndentPosts posts with
    | Except.error _ => { reply := Reply.error "500" "Failed to encode response", written := none }
    | Except.ok report =>
      match obj.putStringError (objName env now) report with
      | some _ =>
        { reply := Reply.error "500" "Failed to store sorted posts in OBJ", written := none }
      | none =>
        { reply := Reply.respond ("Stored HackerNews sorted posts: " ++ objName env now),
          written := some (objName env now, report) }

/-- The loop `for i, obj := range objs` of `listByScoreCount`, from index `i`
on; `latestObject` is `none` while it is the nil pointer.  The dereference
`latestObject.ModTime` is only reached for `i > 0`, when it has been set. -/
def latestLoop : Nat → Option ObjectInfo → List ObjectInfo → Option ObjectInfo
  | _, latestObject, [] => latestObject
  | i, latestObject, o :: rest =>
    let after := match latestObject with
      | some l => decide (o.ModTime > l.ModTime)
      | none => false
    latestLoop (i + 1) (if decide (i = 0) || after then some o else latestObject) rest

/-- Lines 223 to 228 of `listByScoreCount`: the value of `latestObject`. -/
def selectLatest (objs : List ObjectInfo) : Option ObjectInfo := latestLoop 0 none objs

/-- Go `listByScoreCount(obj)` applied to a request with payload `data`. -/
def listByScoreCount (env : Env) (obj : ObjectStore) (data : String) : Exec Reply :=
  let countStr := data
  match Atoi countStr with
  | (count, err) =>
    if err.isSome || decide (count ≤ 0) then
      Exec.done (Reply.error "500" "Invalid count parameter. Must be a positive integer")
    else
      match obj.list with
      | Except.error _ => Exec.done (Reply.error "500" "Failed to access stored objects")
      | Except.ok objs =>
        if objs.length = 0 then Exec.done (Reply.error "404" "No posts found in object store")
        else
          match selectLatest objs with
          | none => Exec.panicked "invalid memory address or nil pointer dereference"
          | some latestObject =>
            match obj.getBytes latestObject.Name with
            | Except.error _ => Exec.done (Reply.error "500" "Failed to retrieve posts")
            | Except.ok objData =>
              match env.unmarshalPosts objData with
              | Except.error _ => Exec.done (Reply.error "500" "Failed to parse report data")
              | Except.ok posts =>
                let posts := if count < posts.length then posts.take count.toNat else posts
                match env.marshalTop posts.length posts with
                | Except.error _ =>
                  Exec.done (Reply.error "500" "Failed to serialize response")
                | Except.ok response => Exec.done (Reply.respond response)

end HackerNews

namespace GoSort

variable {α : Type} [Inhabited α]

/-! ## Predicates used in the proofs about `sort.Slice` -/

/-- The index exchange behind `swap`. -/
def exch (i j k : Nat) : Nat := if k = i then j else if k = j then i else k

/-- `Rearr a b l l'`: `l'` comes from `l` by exchanges of cells inside `[a, b)`. -/
inductive Rearr (a b : Nat) : List α → List α → Prop
  | refl (l : List α) : Rearr a b l l
  | step {l l' : List α} (i j : Nat) : Rearr a b l l' → a ≤ i → i < b → a ≤ j → j < b →
      i < l'.length → j < l'.length → Rearr a b l (swap l' i j)

/-- The comparison `less` is the strict order of an integer key. -/
def KeyOrder (less : α → α → Bool) (key : α → Int) : Prop :=
  ∀ x y, less x y = true ↔ key x < key y

/-- The cells of `[a, b)` are in non-decreasing key order. -/
def SortedOn (key : α → Int) (l : List α) (a b : Nat) : Prop :=
  ∀ i j, a ≤ i → i ≤ j → j < b → key (elem l i) ≤ key (elem l j)

/-- `Stable key inp out`: for every key value, the cells with that key are the
same and in the same order in `inp` and in `out`. -/
def Stable (key : α → Int) (inp out : List α) : Prop :=
  ∀ s : Int, out.filter (fun x => decide (key x = s)) = inp.filter (fun x => decide (key x = s))

/-- Max-heap property of the cells `first + i`, `lo ≤ i`, of a heap with `n` cells:
no child has a larger key than its parent. -/
def HeapFrom (key : α → Int) (l : List α) (first lo n : Nat) : Prop :=
  ∀ i c, lo ≤ i → c < n → (c = 2 * i + 1 ∨ c = 2 * i + 2) →
    key (elem l (first + c)) ≤ key (elem l (first + i))

/-- Loop invariant of `partition_func`: cells `a+1 .. i-1` are below the pivot
kept in cell `a`, cells `j+1 .. b-1` are not. -/
def PartInv (key : α → Int) (l : List α) (a b i j : Nat) : Prop :=
  a + 1 ≤ i ∧ i ≤ j + 1 ∧ j < b ∧ b ≤ l.length ∧
  (∀ k, a + 1 ≤ k → k < i → key (elem l k) < key (elem l a)) ∧
  (∀ k, j < k → k < b → key (elem l a) ≤ key (elem l k))

/-- What the scanning loops of `partition_func` have reached when they stop. -/
def PartPost (key : α → Int) (l : List α) (a b j : Nat) : Prop :=
  a ≤ j ∧ j < b ∧ b ≤ l.length ∧
  (∀ k, a + 1 ≤ k → k ≤ j → key (elem l k) < key (elem l a)) ∧
  (∀ k, j < k → k < b → key (elem l a) ≤ key (elem l k))

/-- Loop invariant of `partitionEqual_func`: cells `a+1 .. i-1` are not above
the pivot kept in cell `a`, cells `j+1 .. b-1` are. -/
def EqInv (key : α → Int) (l : List α) (a b i j : Nat) : Prop :=
  a + 1 ≤ i ∧ i ≤ j + 1 ∧ j < b ∧ b ≤ l.length ∧
  (∀ k, a + 1 ≤ k → k < i → key (elem l k) ≤ key (elem l a)) ∧
  (∀ k, j < k → k < b → key (elem l a) < key (elem l k))

/-- What `partitionEqual_func` has reached when its loop stops at `m`. -/
def EqPost (key : α → Int) (l : List α) (a b m : Nat) : Prop :=
  a + 1 ≤ m ∧ m ≤ b ∧
  (∀ k, a + 1 ≤ k → k < m → key (elem l k) ≤ key (elem l a)) ∧
  (∀ k, m ≤ k → k < b → key (elem l a) < key (elem l k))

/-- The cell before the range, when there is one, is a lower bound of the
range (what earlier partitioning leaves behind). -/
def LB (key : α → Int) (l : List α) (a b : Nat) : Prop :=
  0 < a → ∀ k, a ≤ k → k < b → key (elem l (a - 1)) ≤ key (elem l k)

end GoSort

namespace HackerNews

open GoSort

/-! ## Predicates of the claims and example inputs -/

/-- The key that orders posts the way `lessByPoints` does. -/
def rankKey (p : HackerNewsPost) : Int := -p.Points

/-- The item that one enumerated key contributes to the snapshot built at
`now`, in the words of the specification: nothing for the reserved key, for a
key without a value and for a value that does not decode; otherwise the
decoded item, when it was published strictly after `now - 24h`. -/
def windowItem (env : Env) (kv : KeyValue) (now : Int) (key : String) : Option HackerNewsPost :=
  if key = "hn_ids_latest" then none
  else
    match kv.data key with
    | none => none
    | some v =>
      match env.unmarshalPost v with
      | Except.error _ => none
      | Except.ok p => if now - 24 * Hour < p.Timestamp then some p else none

/-- Equal scores keep their order: for every score, the posts with that score
are the same sequence in `ranked` as in `retained`. -/
def TiesKeepOrder (retained ranked : List HackerNewsPost) : Prop :=
  ∀ s : Int, ranked.filter (fun p => decide (p.Points = s)) =
    retained.filter (fun p => decide (p.Points = s))

/-- A post of the examples: identifier, score and publication instant. -/
def examplePost (id points ts : Int) : HackerNewsPost :=
  { ID := id, Title := "t", URL := "u", Points := points, Timestamp := ts }

/-- The thirteen records of the example bucket: key, stored text, and the
post that the stored text decodes to.  Posts 1 to 12 have score 1, post 13
has score 2; all are published at instant 1000. -/
def tieTable : List (String × String × HackerNewsPost) :=
  [("hn_post_1", "p1", examplePost 1 1 1000), ("hn_post_2", "p2", examplePost 2 1 1000),
   ("hn_post_3", "p3", examplePost 3 1 1000), ("hn_post_4", "p4", examplePost 4 1 1000),
   ("hn_post_5", "p5", examplePost 5 1 1000), ("hn_post_6", "p6", examplePost 6 1 1000),
   ("hn_post_7", "p7", examplePost 7 1 1000), ("hn_post_8", "p8", examplePost 8 1 1000),
   ("hn_post_9", "p9", examplePost 9 1 1000), ("hn_post_10", "p10", examplePost 10 1 1000),
   ("hn_post_11", "p11", examplePost 11 1 1000), ("hn_post_12", "p12", examplePost 12 1 1000),
   ("hn_post_13", "p13", examplePost 13 2 1000)]

/-- Three records whose posts have the scores 5, 90 and 12, all published at
instant 1000. -/
def rankTable : List (String × String × HackerNewsPost) :=
  [("hn_post_1", "p1", examplePost 1 5 1000), ("hn_post_2", "p2", examplePost 2 90 1000),
   ("hn_post_3", "p3", examplePost 3 12 1000)]

/-- Four records whose posts are published 1, 23, 25 and exactly 24 hours
before the instant `100 * Hour`, next to the reserved key. -/
def windowTable : List (String × String × HackerNewsPost) :=
  [("hn_ids_latest", "[1,2,3]", examplePost 0 0 (100 * Hour)),
   ("hn_post_1", "p1", examplePost 1 10 (99 * Hour)),
   ("hn_post_2", "p2", examplePost 2 20 (77 * Hour)),
   ("hn_post_3", "p3", examplePost 3 30 (75 * Hour)),
   ("hn_post_4", "p4", examplePost 4 40 (76 * Hour))]

/-- A codec for the examples: a stored text decodes to the post that `table`
lists for it. -/
def tableEnv (table : List (String × String × HackerNewsPost)) : Env :=
  { httpGet := fun _ => Except.error "offline"
    decodeRecord := fun _ => Except.error "no record"
    sprintV := fun _ => ""
    marshalPost := fun _ => Except.error "unused"
    unmarshalPost := fun v =>
      match (table.map (fun r => r.2)).lookup v with
      | some p => Except.ok p
      | none => Except.error "invalid character"
    marshalIndentPosts := fun _ => Except.ok "report"
    unmarshalPosts := fun _ => Except.error "unused"
    marshalTop := fun _ _ => Except.error "unused"
    formatDate := fun _ => "1970-01-01" }

/-- The enumeration of the keys of `table`, in order. -/
def tableKeys (table : List (String × String × HackerNewsPost)) : List String :=
  table.map (fun r => r.1)

/-- The bucket in which each key of `table` holds its stored text. -/
def tableKV (table : List (String × String × HackerNewsPost)) : KeyValue :=
  { data := fun k => (table.map (fun r => (r.1, r.2.1))).lookup k
    putError := fun _ _ => none }

/-- The codec of the example with thirteen posts. -/
def tieEnv : Env := tableEnv tieTable

/-- The enumeration of the thirteen item keys of the example, in order. -/
def tieKeys : List String := tableKeys tieTable

/-- The bucket of the example with thirteen posts. -/
def tieKV : KeyValue := tableKV tieTable

/-- `sel` sits at index `k` of `objs`, no object of `objs` is more recent, and
every object before index `k` is strictly older: `sel` is the first object
with the maximal modification time. -/
def FirstMax (objs : List ObjectInfo) (k : Nat) (sel : ObjectInfo) : Prop :=
  objs[k]? = some sel ∧ (∀ (j : Nat) (o : ObjectInfo), objs[j]? = some o → o.ModTime ≤ sel.ModTime) ∧
    (∀ (j : Nat) (o : ObjectInfo), j < k → objs[j]? = some o → o.ModTime < sel.ModTime)

/-- The selection rule in the words of the specification: `sel` sits at index
`k` of `objs`, no object is more recent, and every object after index `k` is
strictly older: `sel` is the last object with the maximal modification time. -/
def LastMax (objs : List ObjectInfo) (k : Nat) (sel : ObjectInfo) : Prop :=
  objs[k]? = some sel ∧ (∀ (j : Nat) (o : ObjectInfo), objs[j]? = some o → o.ModTime ≤ sel.ModTime) ∧
    (∀ (j : Nat) (o : ObjectInfo), k < j → objs[j]? = some o → o.ModTime < sel.ModTime)

/-- Two snapshots with the same modification time, in enumeration order. -/
def tiedObjects : List ObjectInfo :=
  [{ Name := "hn_posts_2024-01-01", ModTime := 5 }, { Name := "hn_posts_2024-01-02", ModTime := 5 }]

/-- An empty bucket whose `Put` succeeds. -/
def emptyKV : KeyValue := { data := fun _ => none, putError := fun _ _ => none }

/-- A bucket that already holds the text `old` under `hn_post_1`; its `Put`
succeeds. -/
def staleKV : KeyValue :=
  { data := fun k => if k = "hn_post_1" then some "old" else none, putError := fun _ _ => none }

/-- A decoded upstream record of a story with all fields. -/
def storyRecord : Record := fun k =>
  if k = "type" then JSONValue.string "story"
  else if k = "title" then JSONValue.string "A story"
  else if k = "score" then JSONValue.number 10
  else if k = "time" then JSONValue.number 1700000000
  else JSONValue.null

/-- A decoded upstream record of a story that has no `score`. -/
def noScoreRecord : Record := fun k =>
  if k = "type" then JSONValue.string "story"
  else if k = "title" then JSONValue.string "A story"
  else if k = "time" then JSONValue.number 1700000000
  else JSONValue.null

/-- A decoded upstream record of a story whose `title` is the number 123. -/
def numberTitleRecord : Record := fun k =>
  if k = "type" then JSONValue.string "story"
  else if k = "title" then JSONValue.number 123
  else if k = "score" then JSONValue.number 10
  else if k = "time" then JSONValue.number 1700000000
  else JSONValue.null

/-- Collaborators for the examples: the Fetcher answers every request with
`record`, a post serialises to the text `post`, a snapshot of five posts with
scores 50, 40, 30, 20, 10 is stored as `blob`, and the reply to `top` is
written as `count=<n> ids=<ids>` for the cases used below. -/
def exampleEnv (record : Record) : Env :=
  { httpGet := fun _ => Except.ok "body"
    decodeRecord := fun _ => Except.ok record
    sprintV := fun _ => "https://example.org"
    marshalPost := fun _ => Except.ok "post"
    unmarshalPost := fun _ => Except.error "unused"
    marshalIndentPosts := fun _ => Except.ok "report"
    unmarshalPosts := fun b =>
      if b = "blob" then
        Except.ok [examplePost 1 50 1000, examplePost 2 40 1000, examplePost 3 30 1000,
          examplePost 4 20 1000, examplePost 5 10 1000]
      else Except.error "unexpected end of JSON input"
    marshalTop := fun n ps =>
      if n = 2 ∧ ps.map (fun p => p.ID) = [1, 2] then Except.ok "count=2 ids=1,2"
      else Except.ok "other"
    formatDate := fun _ => "1970-01-01" }

/-- An object store that lists one snapshot, whose content is `blob`. -/
def exampleObj : ObjectStore :=
  { list := Except.ok [{ Name := "hn_posts_1970-01-01", ModTime := 7 }]
    getBytes := fun name =>
      if name = "hn_posts_1970-01-01" then Except.ok "blob" else Except.error "object not found"
    putStringError := fun _ _ => none }

/-- The bucket that a run of a handler leaves, when the run returns. -/
def bucketOf {β : Type} : Exec (KeyValue × β) → Option KeyValue
  | Exec.done (kv, _) => some kv
  | Exec.panicked _ => none

/-- The bucket after `processHackerNewsID(id, kv)`; a panic leaves the bucket
as it was, since no `Put` precedes it. -/
def bucketAfter (env : Env) (id : Int) (kv : KeyValue) : KeyValue :=
  match processHackerNewsID env id kv with
  | Exec.done (kv', _) => kv'
  | Exec.panicked _ => kv

/-- The Item that lines 89 to 96 of `processHackerNewsID` build from a decoded
record, when the three type assertions hold. -/
def buildItem (env : Env) (id : Int) (post : Record) : Option HackerNewsPost :=
  match assertFloat64 (post "time"), assertString (post "title"), assertFloat64 (post "score") with
  | some sec, some title, some score =>
    some { ID := id, Title := title, URL := env.sprintV (post "url"), Points := score,
           Timestamp := timeUnix sec 0 }
  | _, _, _ => none

/-- The bucket `kv` after an upsert of `value` under `key`. -/
def upsert (kv : KeyValue) (key value : String) : KeyValue :=
  { kv with data := fun k => if k = key then some value else kv.data k }

end HackerNews

namespace GoSort

variable {α : Type} [Inhabited α]

/-! ## `sort.Slice` sorts and permutes -/

theorem length_swap (l : List α) (i j : Nat) : (swap l i j).length = l.length := by
  simp [swap]

theorem elem_eq_getElem (l : List α) (i : Nat) (h : i < l.length) : elem l i = l[i] := by
  simp [elem, List.getD_eq_getElem?_getD, List.getElem?_eq_getElem h]

theorem elem_swap (l : List α) (i j k : Nat) (hi : i < l.length) (hj : j < l.length) :
    elem (swap l i j) k = elem l (if k = i then j else if k = j then i else k) := by
  unfold swap elem
  simp only [List.getD_eq_getElem?_getD, List.getElem?_set]
  by_cases hkj : j = k
  · subst hkj
    by_cases hki : j = i
    · subst hki; simp [hi]
    · simp [hki, hi, hj]
  · by_cases hki : i = k
    · subst hki
      have : ¬ i = j := fun h => hkj h.symm
      simp [hkj, hi, this]
    · have h1 : ¬ k = i := fun h => hki h.symm
      have h2 : ¬ k = j := fun h => hkj h.symm
      simp [hkj, hki, h1, h2]

theorem eq_map_elem (l : List α) : l = (List.range l.length).map (elem l) := by
  apply List.ext_getElem
  · simp
  · intro n h1 h2
    simp [elem_eq_getElem l n h1]

theorem exch_exch (i j k : Nat) : exch i j (exch i j k) = k := by
  unfold exch; split_ifs <;> omega

theorem exch_lt (i j k n : Nat) (hi : i < n) (hj : j < n) (hk : k < n) : exch i j k < n := by
  unfold exch; split_ifs <;> omega

theorem map_exch_perm (i j n : Nat) (hi : i < n) (hj : j < n) :
    ((List.range n).map (exch i j)).Perm (List.range n) := by
  rw [List.perm_ext_iff_of_nodup]
  · intro a
    simp only [List.mem_map, List.mem_range]
    constructor
    · rintro ⟨k, hk, rfl⟩; exact exch_lt i j k n hi hj hk
    · intro ha; exact ⟨exch i j a, exch_lt i j a n hi hj ha, exch_exch i j a⟩
  · apply List.Nodup.map _ (List.nodup_range n)
    intro x y h
    have := congrArg (exch i j) h
    simpa [exch_exch] using this
  · exact List.nodup_range n

theorem swap_perm (l : List α) (i j : Nat) (hi : i < l.length) (hj : j < l.length) :
    (swap l i j).Perm l := by
  have h1 : swap l i j = ((List.range l.length).map (exch i j)).map (elem l) := by
    conv_lhs => rw [eq_map_elem (swap l i j)]
    rw [length_swap, List.map_map]
    apply List.map_congr_left
    intro k _
    simp [elem_swap l i j k hi hj, exch]
  rw [h1]
  conv_rhs => rw [eq_map_elem l]
  exact (map_exch_perm i j l.length hi hj).map _

theorem Rearr.length {a b : Nat} {l l' : List α} (h : Rearr a b l l') : l'.length = l.length := by
  induction h with
  | refl => rfl
  | step i j _ _ _ _ _ _ _ ih => rw [length_swap, ih]

theorem Rearr.perm {a b : Nat} {l l' : List α} (h : Rearr a b l l') : l'.Perm l := by
  induction h with
  | refl => exact List.Perm.refl _
  | step i j _ _ _ _ _ hi hj ih => exact (swap_perm _ i j hi hj).trans ih

theorem Rearr.trans {a b : Nat} {l l' l'' : List α} (h1 : Rearr a b l l') (h2 : Rearr a b l' l'') :
    Rearr a b l l'' := by
  induction h2 with
  | refl => exact h1
  | step i j _ h3 h4 h5 h6 hi hj ih => exact Rearr.step i j ih h3 h4 h5 h6 hi hj

theorem Rearr.mono {a b a' b' : Nat} {l l' : List α} (h : Rearr a b l l') (ha : a' ≤ a)
    (hb : b ≤ b') : Rearr a' b' l l' := by
  induction h with
  | refl => exact Rearr.refl _
  | step i j _ h3 h4 h5 h6 hi hj ih =>
    exact Rearr.step i j ih (by omega) (by omega) (by omega) (by omega) hi hj

theorem Rearr.swap {a b : Nat} (l : List α) (i j : Nat) (h1 : a ≤ i) (h2 : i < b) (h3 : a ≤ j)
    (h4 : j < b) (hb : b ≤ l.length) : Rearr a b l (swap l i j) :=
  Rearr.step i j (Rearr.refl l) h1 h2 h3 h4 (by omega) (by omega)

/-- Cells outside `[a, b)` are not touched. -/
theorem Rearr.outside {a b : Nat} {l l' : List α} (h : Rearr a b l l') (k : Nat)
    (hk : k < a ∨ b ≤ k) : elem l' k = elem l k := by
  induction h with
  | refl => rfl
  | step i j _ _ _ _ _ hi hj ih =>
    rw [elem_swap _ i j k hi hj, ← ih]
    have h1 : ¬ k = i := by omega
    have h2 : ¬ k = j := by omega
    simp [h1, h2]

/-- What holds of every cell of `[a, b)` before still holds of every cell after. -/
theorem Rearr.forall_mem {a b : Nat} {l l' : List α} (h : Rearr a b l l') (P : α → Prop)
    (hP : ∀ k, a ≤ k → k < b → P (elem l k)) : ∀ k, a ≤ k → k < b → P (elem l' k) := by
  induction h with
  | refl => exact hP
  | step i j _ h1 h2 h3 h4 hi hj ih =>
    intro k hk1 hk2
    rw [elem_swap _ i j k hi hj]
    apply ih
    · split_ifs <;> omega
    · split_ifs <;> omega

theorem elem_swap_left (l : List α) (i j : Nat) (hi : i < l.length) (hj : j < l.length) :
    elem (swap l i j) i = elem l j := by
  rw [elem_swap l i j i hi hj]; simp

theorem elem_swap_right (l : List α) (i j : Nat) (hi : i < l.length) (hj : j < l.length) :
    elem (swap l i j) j = elem l i := by
  rw [elem_swap l i j j hi hj]
  by_cases h : j = i
  · simp [h]
  · simp [h]

theorem elem_swap_ne (l : List α) (i j k : Nat) (hi : i < l.length) (hj : j < l.length)
    (h1 : k ≠ i) (h2 : k ≠ j) : elem (swap l i j) k = elem l k := by
  rw [elem_swap l i j k hi hj]; simp [h1, h2]

theorem insertionSort_inner_spec {less : α → α → Bool} {key : α → Int} (hless : KeyOrder less key)
    (a top : Nat) : ∀ (c : Nat) (l : List α), a ≤ c → c ≤ top → top < l.length →
    SortedOn key l a c → SortedOn key l c (top + 1) →
    (∀ x y, a ≤ x → x < c → c < y → y ≤ top → key (elem l x) ≤ key (elem l y)) →
    Rearr a (top + 1) l (insertionSort_inner less a c l) ∧
      SortedOn key (insertionSort_inner less a c l) a (top + 1) := by
  intro c
  induction c with
  | zero =>
    intro l ha _ _ _ h2 _
    have : a = 0 := by omega
    subst this
    exact ⟨Rearr.refl _, h2⟩
  | succ j ih =>
    intro l ha hc ht h1 h2 h3
    unfold insertionSort_inner
    by_cases hcond : (decide (a < j + 1) && less (elem l (j + 1)) (elem l j)) = true
    · rw [if_pos hcond]
      simp only [Bool.and_eq_true, decide_eq_true_eq] at hcond
      obtain ⟨haj, hlt⟩ := hcond
      have hlt := (hless _ _).1 hlt
      have hj1 : j + 1 < l.length := by omega
      have hj0 : j < l.length := by omega
      have e1 := elem_swap_left l (j + 1) j hj1 hj0
      have e2 := elem_swap_right l (j + 1) j hj1 hj0
      have e3 := fun k h1 h2 => elem_swap_ne l (j + 1) j k hj1 hj0 h1 h2
      have hrec := ih (swap l (j + 1) j) (by omega) (by omega) (by rw [length_swap]; omega)
        (by
          intro x y hx hxy hy
          rw [e3 x (by omega) (by omega), e3 y (by omega) (by omega)]
          exact h1 x y hx hxy (by omega))
        (by
          intro x y hx hxy hy
          rcases Nat.lt_or_ge x (j + 1) with hxj | hxj
          · have hxe : x = j := by omega
            subst hxe
            rw [e2]
            rcases Nat.lt_or_ge y (x + 1) with hy1 | hy1
            · have : y = x := by omega
              subst this; rw [e2]
            · rcases Nat.lt_or_ge y (x + 2) with hy2 | hy2
              · have : y = x + 1 := by omega
                subst this; rw [e1]; omega
              · rw [e3 y (by omega) (by omega)]
                exact h2 (x + 1) y (by omega) (by omega) hy
          · rcases Nat.lt_or_ge x (j + 2) with hx2 | hx2
            · have hxe : x = j + 1 := by omega
              subst hxe
              rw [e1]
              rcases Nat.lt_or_ge y (j + 2) with hy2 | hy2
              · have : y = j + 1 := by omega
                subst this; rw [e1]
              · rw [e3 y (by omega) (by omega)]
                exact h3 j y (by omega) (by omega) (by omega) (by omega)
            · rw [e3 x (by omega) (by omega), e3 y (by omega) (by omega)]
              exact h2 x y (by omega) hxy hy)
        (by
          intro x y hx hxj hjy hy
          rw [e3 x (by omega) (by omega)]
          rcases Nat.lt_or_ge y (j + 2) with hy2 | hy2
          · have : y = j + 1 := by omega
            subst this; rw [e1]
            exact h1 x j hx (by omega) (by omega)
          · rw [e3 y (by omega) (by omega)]
            exact h3 x y hx (by omega) (by omega) hy)
      exact ⟨(Rearr.swap l (j + 1) j (by omega) (by omega) (by omega) (by omega) (by omega)).trans
        hrec.1, hrec.2⟩
    · rw [if_neg hcond]
      refine ⟨Rearr.refl _, ?_⟩
      simp only [Bool.and_eq_true, decide_eq_true_eq, not_and] at hcond
      intro x y hx hxy hy
      rcases Nat.lt_or_ge a (j + 1) with haj | haj
      · have hnl := hcond haj
        have hle : key (elem l j) ≤ key (elem l (j + 1)) := by
          have := (hless (elem l (j + 1)) (elem l j)).not.1 hnl
          omega
        rcases Nat.lt_or_ge y (j + 1) with hy1 | hy1
        · exact h1 x y hx hxy hy1
        · rcases Nat.lt_or_ge x (j + 1) with hx1 | hx1
          · have a1 := h1 x j hx (by omega) (by omega)
            have a2 := h2 (j + 1) y (by omega) hy1 hy
            omega
          · exact h2 x y hx1 hxy hy
      · exact h2 x y (by omega) hxy hy

theorem SortedOn.shrink {key : α → Int} {l : List α} {a b a' b' : Nat} (h : SortedOn key l a b)
    (ha : a ≤ a') (hb : b' ≤ b) : SortedOn key l a' b' :=
  fun i j h1 h2 h3 => h i j (by omega) h2 (by omega)

theorem SortedOn.of_rearr_outside {key : α → Int} {l l' : List α} {a b c d : Nat}
    (h : SortedOn key l a b) (hr : Rearr c d l l') (hcd : d ≤ a ∨ b ≤ c) :
    SortedOn key l' a b := by
  intro i j h1 h2 h3
  rw [hr.outside i (by omega), hr.outside j (by omega)]
  exact h i j h1 h2 h3

theorem insertionSort_fold_spec {less : α → α → Bool} {key : α → Int} (hless : KeyOrder less key)
    (a : Nat) : ∀ (n s : Nat) (l : List α), a < s → s + n ≤ l.length ∨ n = 0 → SortedOn key l a s →
    Rearr a (s + n) l
        ((List.range' s n).foldl (fun d i => insertionSort_inner less a i d) l) ∧
      SortedOn key ((List.range' s n).foldl (fun d i => insertionSort_inner less a i d) l)
        a (s + n) := by
  intro n
  induction n with
  | zero =>
    intro s l _ _ hs
    exact ⟨Rearr.refl _, hs⟩
  | succ n ih =>
    intro s l has hlen hs
    have hlen : s + (n + 1) ≤ l.length := by omega
    rw [List.range'_succ, List.foldl_cons]
    have h1 := insertionSort_inner_spec hless a s s l (by omega) (le_refl _) (by omega) hs
      (by intro x y hx hxy hy
          have : x = y := by omega
          subst this; exact le_refl _)
      (by intro x y _ _ h3 h4; omega)
    have h2 := ih (s + 1) (insertionSort_inner less a s l) (by omega)
      (by left; rw [h1.1.length]; omega) h1.2
    have e : s + 1 + n = s + (n + 1) := by omega
    rw [e] at h2
    exact ⟨(h1.1.mono (le_refl _) (by omega)).trans h2.1, h2.2⟩

theorem insertionSort_func_spec {less : α → α → Bool} {key : α → Int} (hless : KeyOrder less key)
    (l : List α) (a b : Nat) (hb : b ≤ l.length) :
    Rearr a b l (insertionSort_func less l a b) ∧
      SortedOn key (insertionSort_func less l a b) a b := by
  unfold insertionSort_func
  rcases Nat.lt_or_ge a b with hab | hab
  · have h := insertionSort_fold_spec hless a (b - (a + 1)) (a + 1) l (by omega) (by omega)
      (by intro x y hx hxy hy
          have : x = y := by omega
          subst this; exact le_refl _)
    have e : a + 1 + (b - (a + 1)) = b := by omega
    rw [e] at h
    exact h
  · have e : b - (a + 1) = 0 := by omega
    rw [e]
    simp only [List.range'_zero, List.foldl_nil]
    refine ⟨Rearr.refl _, ?_⟩
    intro x y hx hxy hy
    omega

theorem swap_adjacent (j : Nat) : ∀ (l : List α), j + 1 < l.length →
    swap l (j + 1) j = l.take j ++ elem l (j + 1) :: elem l j :: l.drop (j + 2) := by
  induction j with
  | zero =>
    intro l h
    match l, h with
    | x :: y :: r, _ => simp [swap, elem]
  | succ j ih =>
    intro l h
    match l, h with
    | x :: r, h =>
      have h' : j + 1 < r.length := by simpa using h
      have := ih r h'
      simp only [swap, elem, List.getD_cons_succ, List.set_cons_succ, List.take_succ_cons,
        List.drop_succ_cons, List.cons_append] at this ⊢
      rw [this]

theorem take_drop_adjacent (j : Nat) (l : List α) (h : j + 1 < l.length) :
    l = l.take j ++ elem l j :: elem l (j + 1) :: l.drop (j + 2) := by
  conv_lhs => rw [← List.take_append_drop j l]
  congr 1
  rw [elem_eq_getElem l j (by omega), elem_eq_getElem l (j + 1) h]
  rw [List.drop_eq_getElem_cons (by omega : j < l.length)]
  rw [List.drop_eq_getElem_cons h]

theorem Stable.of_adjacent_swap {key : α → Int} (l : List α) (j : Nat) (h : j + 1 < l.length)
    (hne : key (elem l (j + 1)) ≠ key (elem l j)) : Stable key l (swap l (j + 1) j) := by
  intro s
  rw [GoSort.swap_adjacent j l h]
  conv_rhs => rw [take_drop_adjacent j l h]
  simp only [List.filter_append, List.filter_cons]
  by_cases h1 : key (elem l (j + 1)) = s
  · have h2 : ¬ key (elem l j) = s := fun h2 => hne (h1.trans h2.symm)
    simp [h1, h2]
  · simp [h1]

theorem Stable.refl (key : α → Int) (l : List α) : Stable key l l := fun _ => rfl

theorem Stable.comp {key : α → Int} {l1 l2 l3 : List α} (h1 : Stable key l1 l2)
    (h2 : Stable key l2 l3) : Stable key l1 l3 := fun s => (h2 s).trans (h1 s)

theorem insertionSort_inner_stable {less : α → α → Bool} {key : α → Int}
    (hless : KeyOrder less key) (a : Nat) : ∀ (c : Nat) (l : List α), c < l.length →
    Stable key l (insertionSort_inner less a c l) := by
  intro c
  induction c with
  | zero => intro l _; exact Stable.refl _ _
  | succ j ih =>
    intro l hc
    unfold insertionSort_inner
    by_cases hcond : (decide (a < j + 1) && less (elem l (j + 1)) (elem l j)) = true
    · rw [if_pos hcond]
      simp only [Bool.and_eq_true, decide_eq_true_eq] at hcond
      have hlt := (hless _ _).1 hcond.2
      exact (Stable.of_adjacent_swap l j hc (by omega)).comp
        (ih _ (by rw [length_swap]; omega))
    · rw [if_neg hcond]; exact Stable.refl _ _

theorem length_insertionSort_inner (less : α → α → Bool) (a : Nat) : ∀ (c : Nat) (l : List α),
    (insertionSort_inner less a c l).length = l.length := by
  intro c
  induction c with
  | zero => intro l; rfl
  | succ j ih =>
    intro l
    unfold insertionSort_inner
    split_ifs
    · rw [ih, length_swap]
    · rfl

theorem insertionSort_fold_stable {less : α → α → Bool} {key : α → Int}
    (hless : KeyOrder less key) (a : Nat) : ∀ (n s : Nat) (l : List α), s + n ≤ l.length →
    Stable key l ((List.range' s n).foldl (fun d i => insertionSort_inner less a i d) l) := by
  intro n
  induction n with
  | zero => intro s l _; exact Stable.refl _ _
  | succ n ih =>
    intro s l h
    rw [List.range'_succ, List.foldl_cons]
    exact (insertionSort_inner_stable hless a s l (by omega)).comp
      (ih (s + 1) _ (by rw [length_insertionSort_inner]; omega))

theorem insertionSort_func_stable {less : α → α → Bool} {key : α → Int}
    (hless : KeyOrder less key) (l : List α) (a b : Nat) (hb : b ≤ l.length) :
    Stable key l (insertionSort_func less l a b) := by
  unfold insertionSort_func
  rcases Nat.lt_or_ge a b with hab | hab
  · exact insertionSort_fold_stable hless a _ _ l (by omega)
  · have e : b - (a + 1) = 0 := by omega
    rw [e]; exact Stable.refl _ _

theorem siftDown_loop_spec {less : α → α → Bool} {key : α → Int} (hless : KeyOrder less key)
    (hi first lo : Nat) : ∀ (fuel root : Nat) (l : List α), hi - root ≤ fuel → lo ≤ root →
    first + hi ≤ l.length →
    (∀ i c, lo ≤ i → i ≠ root → c < hi → (c = 2 * i + 1 ∨ c = 2 * i + 2) →
      key (elem l (first + c)) ≤ key (elem l (first + i))) →
    (∀ p c, lo ≤ p → (root = 2 * p + 1 ∨ root = 2 * p + 2) → c < hi →
      (c = 2 * root + 1 ∨ c = 2 * root + 2) →
      key (elem l (first + c)) ≤ key (elem l (first + p))) →
    Rearr (first + root) (first + hi) l (siftDown_loop less hi first fuel root l) ∧
      HeapFrom key (siftDown_loop less hi first fuel root l) first lo hi := by
  intro fuel
  induction fuel with
  | zero =>
    intro root l hf _ _ H1 _
    refine ⟨Rearr.refl _, ?_⟩
    intro i c hi1 hc hch
    exact H1 i c hi1 (by omega) hc hch
  | succ fuel ih =>
    intro root l hf hlo hlen H1 H2
    unfold siftDown_loop
    simp only []
    by_cases h0 : 2 * root + 1 ≥ hi
    · rw [if_pos h0]
      refine ⟨Rearr.refl _, ?_⟩
      intro i c hi1 hc hch
      exact H1 i c hi1 (by omega) hc hch
    · rw [if_neg h0]
      -- the larger child
      obtain ⟨ch, hch, hchild, hchlt, hmax⟩ : ∃ ch, ch =
          (if (decide (2 * root + 1 + 1 < hi) &&
            less (elem l (first + (2 * root + 1))) (elem l (first + (2 * root + 1) + 1))) = true
            then 2 * root + 1 + 1 else 2 * root + 1) ∧ (ch = 2 * root + 1 ∨ ch = 2 * root + 2) ∧
            ch < hi ∧ ∀ c, c < hi → (c = 2 * root + 1 ∨ c = 2 * root + 2) →
              key (elem l (first + c)) ≤ key (elem l (first + ch)) := by
        refine ⟨_, rfl, ?_⟩
        by_cases hc : (decide (2 * root + 1 + 1 < hi) &&
            less (elem l (first + (2 * root + 1))) (elem l (first + (2 * root + 1) + 1))) = true
        · rw [if_pos hc]
          simp only [Bool.and_eq_true, decide_eq_true_eq] at hc
          have hl := (hless _ _).1 hc.2
          refine ⟨Or.inr rfl, hc.1, ?_⟩
          intro c hc1 hc2
          rcases hc2 with rfl | rfl
          · have e : first + (2 * root + 1) + 1 = first + (2 * root + 1 + 1) := by omega
            rw [e] at hl; omega
          · exact le_refl _
        · rw [if_neg hc]
          simp only [Bool.and_eq_true, decide_eq_true_eq, not_and] at hc
          refine ⟨Or.inl rfl, by omega, ?_⟩
          intro c hc1 hc2
          rcases hc2 with rfl | rfl
          · exact le_refl _
          · have hn := hc (by omega)
            have := (hless (elem l (first + (2 * root + 1)))
              (elem l (first + (2 * root + 1) + 1))).not.1 hn
            have e : first + (2 * root + 1) + 1 = first + (2 * root + 2) := by omega
            rw [e] at this; omega
      rw [← hch]
      by_cases h1 : (!less (elem l (first + root)) (elem l (first + ch))) = true
      · rw [if_pos h1]
        refine ⟨Rearr.refl _, ?_⟩
        intro i c hi1 hc hcc
        by_cases hir : i = root
        · subst hir
          have hn : ¬ less (elem l (first + i)) (elem l (first + ch)) = true := by
            simpa using h1
          have := (hless _ _).not.1 hn
          have := hmax c hc hcc
          omega
        · exact H1 i c hi1 hir hc hcc
      · rw [if_neg h1]
        have hl : key (elem l (first + root)) < key (elem l (first + ch)) := by
          apply (hless _ _).1
          simpa using h1
        have hr1 : first + root < l.length := by omega
        have hc1 : first + ch < l.length := by omega
        have e1 := elem_swap_left l (first + root) (first + ch) hr1 hc1
        have e2 := elem_swap_right l (first + root) (first + ch) hr1 hc1
        have e3 := fun k h1 h2 => elem_swap_ne l (first + root) (first + ch) k hr1 hc1 h1 h2
        have hrec := ih ch (swap l (first + root) (first + ch)) (by omega) (by omega)
          (by rw [length_swap]; exact hlen)
          (by
            intro i c hi1 hne hc hcc
            by_cases hir : i = root
            · subst hir
              rw [e1]
              by_cases hcch : c = ch
              · subst hcch; rw [e2]; omega
              · rw [e3 (first + c) (by omega) (by omega)]
                exact hmax c hc hcc
            · rw [e3 (first + i) (by omega) (by omega)]
              by_cases hcr : c = root
              · subst hcr
                rw [e1]
                exact H2 i ch hi1 hcc hchlt hchild
              · rw [e3 (first + c) (by omega) (by omega)]
                exact H1 i c hi1 hir hc hcc)
          (by
            intro p c hp hpc hc hcc
            have hpr : p = root := by omega
            subst hpr
            rw [e1, e3 (first + c) (by omega) (by omega)]
            exact H1 ch c (by omega) (by omega) hc hcc)
        exact ⟨(Rearr.swap l (first + root) (first + ch) (by omega) (by omega) (by omega)
          (by omega) hlen).trans (hrec.1.mono (by omega) (le_refl _)), hrec.2⟩

theorem siftDown_func_spec {less : α → α → Bool} {key : α → Int} (hless : KeyOrder less key)
    (l : List α) (lo hi first : Nat) (hlen : first + hi ≤ l.length)
    (H : HeapFrom key l first (lo + 1) hi) :
    Rearr (first + lo) (first + hi) l (siftDown_func less l lo hi first) ∧
      HeapFrom key (siftDown_func less l lo hi first) first lo hi := by
  unfold siftDown_func
  apply siftDown_loop_spec hless hi first lo (hi - lo) lo l (le_refl _) (le_refl _) hlen
  · intro i c hi1 hne hc hcc
    exact H i c (by omega) hc hcc
  · intro p c hp hpc
    omega

theorem HeapFrom.root_max {key : α → Int} {l : List α} {first n : Nat}
    (H : HeapFrom key l first 0 n) : ∀ k, k < n →
    key (elem l (first + k)) ≤ key (elem l first) := by
  intro k
  induction k using Nat.strong_induction_on with
  | _ k ih =>
    intro hk
    rcases Nat.eq_zero_or_pos k with h0 | h0
    · subst h0; exact le_refl _
    · have h1 := H ((k - 1) / 2) k (Nat.zero_le _) hk (by omega)
      have h2 := ih ((k - 1) / 2) (by omega) (by omega)
      omega

theorem heapSort_build_spec {less : α → α → Bool} {key : α → Int} (hless : KeyOrder less key)
    (hi first : Nat) : ∀ (i : Nat) (l : List α), first + hi ≤ l.length →
    HeapFrom key l first (i + 1) hi →
    Rearr first (first + hi) l (heapSort_build less hi first i l) ∧
      HeapFrom key (heapSort_build less hi first i l) first 0 hi := by
  intro i
  induction i with
  | zero =>
    intro l hlen H
    unfold heapSort_build
    have := siftDown_func_spec hless l 0 hi first hlen H
    simpa using this
  | succ i ih =>
    intro l hlen H
    unfold heapSort_build
    have h1 := siftDown_func_spec hless l (i + 1) hi first hlen H
    have h2 := ih (siftDown_func less l (i + 1) hi first) (by rw [h1.1.length]; exact hlen) h1.2
    exact ⟨(h1.1.mono (by omega) (le_refl _)).trans h2.1, h2.2⟩

theorem heapSort_pop_spec {less : α → α → Bool} {key : α → Int} (hless : KeyOrder less key)
    (hi first : Nat) : ∀ (n : Nat) (l : List α), first + hi ≤ l.length → n ≤ hi →
    HeapFrom key l first 0 n → SortedOn key l (first + n) (first + hi) →
    (∀ x y, x < n → n ≤ y → y < hi → key (elem l (first + x)) ≤ key (elem l (first + y))) →
    Rearr first (first + hi) l (heapSort_pop less first n l) ∧
      SortedOn key (heapSort_pop less first n l) first (first + hi) := by
  intro n
  induction n with
  | zero =>
    intro l _ _ _ hs _
    exact ⟨Rearr.refl _, by simpa using hs⟩
  | succ i ih =>
    intro l hlen hn H hs hx
    unfold heapSort_pop
    have hf : first < l.length := by omega
    have hfi : first + i < l.length := by omega
    have e1 := elem_swap_left l first (first + i) hf hfi
    have e2 := elem_swap_right l first (first + i) hf hfi
    have e3 := fun k h1 h2 => elem_swap_ne l first (first + i) k hf hfi h1 h2
    have hmax := H.root_max
    have hsw : Rearr first (first + hi) l (swap l first (first + i)) :=
      Rearr.swap l first (first + i) (by omega) (by omega) (by omega) (by omega) hlen
    have hsd := siftDown_func_spec hless (swap l first (first + i)) 0 i first
      (by rw [length_swap]; omega)
      (by
        intro j c hj hc hcc
        rw [e3 (first + c) (by omega) (by omega), e3 (first + j) (by omega) (by omega)]
        exact H j c (by omega) (by omega) hcc)
    have hsd1 : Rearr first (first + i) (swap l first (first + i))
        (siftDown_func less (swap l first (first + i)) 0 i first) := by simpa using hsd.1
    -- every cell of the shrunken heap is below every cell of the sorted tail
    have hcross1 : ∀ y, i ≤ y → y < hi → ∀ k, first ≤ k → k < first + i →
        key (elem (swap l first (first + i)) k) ≤
          key (elem (swap l first (first + i)) (first + y)) := by
      intro y hy1 hy2 k hk1 hk2
      have hkk : key (elem (swap l first (first + i)) k) ≤ key (elem l first) := by
        by_cases hk : k = first
        · subst hk; rw [e1]; have := hmax i (by omega); exact this
        · rw [e3 k hk (by omega)]
          have := hmax (k - first) (by omega)
          have e : first + (k - first) = k := by omega
          rw [e] at this; exact this
      by_cases hyi : y = i
      · subst hyi; rw [e2]; exact hkk
      · rw [e3 (first + y) (by omega) (by omega)]
        by_cases hk : k = first
        · subst hk; rw [e1]; exact hx i y (by omega) (by omega) hy2
        · rw [e3 k hk (by omega)]
          have := hx (k - first) y (by omega) (by omega) hy2
          have e : first + (k - first) = k := by omega
          rw [e] at this; exact this
    have hrec := ih (siftDown_func less (swap l first (first + i)) 0 i first)
      (by rw [hsd.1.length, length_swap]; exact hlen) (by omega) hsd.2
      (by
        intro x y hx1 hxy hy
        rw [hsd1.outside x (by omega), hsd1.outside y (by omega)]
        by_cases hxi : x = first + i
        · subst hxi
          rw [e2]
          by_cases hyi : y = first + i
          · subst hyi; rw [e2]
          · rw [e3 y (by omega) (by omega)]
            have := hx 0 (y - first) (by omega) (by omega) (by omega)
            have e : first + (y - first) = y := by omega
            rw [e] at this; simpa using this
        · rw [e3 x (by omega) (by omega), e3 y (by omega) (by omega)]
          exact hs x y (by omega) hxy hy)
      (by
        intro x y hx1 hy1 hy2
        rw [hsd1.outside (first + y) (by omega)]
        exact hsd1.forall_mem
          (fun e => key e ≤ key (elem (swap l first (first + i)) (first + y)))
          (hcross1 y hy1 hy2) (first + x) (by omega) (by omega))
    exact ⟨hsw.trans ((hsd1.mono (le_refl _) (by omega)).trans hrec.1), hrec.2⟩

theorem heapSort_func_spec {less : α → α → Bool} {key : α → Int} (hless : KeyOrder less key)
    (l : List α) (a b : Nat) (hab : a ≤ b) (hb : b ≤ l.length) :
    Rearr a b l (heapSort_func less l a b) ∧ SortedOn key (heapSort_func less l a b) a b := by
  unfold heapSort_func
  simp only []
  have h1 := heapSort_build_spec hless (b - a) a ((b - a - 1) / 2) l (by omega)
    (by intro i c hi hc hcc; omega)
  have h2 := heapSort_pop_spec hless (b - a) a (b - a)
    (heapSort_build less (b - a) a ((b - a - 1) / 2) l) (by rw [h1.1.length]; omega) (le_refl _)
    h1.2 (by intro x y hx hxy hy; omega) (by intro x y hx hy1 hy2; omega)
  have e : a + (b - a) = b := by omega
  rw [e] at h1 h2
  exact ⟨h1.1.trans h2.1, h2.2⟩

theorem partition_scanUp_spec {less : α → α → Bool} {key : α → Int} (hless : KeyOrder less key)
    (l : List α) (a j : Nat) : ∀ (fuel i : Nat), j + 1 - i ≤ fuel →
    i ≤ partition_scanUp less l a j fuel i ∧
    (partition_scanUp less l a j fuel i ≤ j + 1 ∨ partition_scanUp less l a j fuel i = i) ∧
    (∀ k, i ≤ k → k < partition_scanUp less l a j fuel i → key (elem l k) < key (elem l a)) ∧
    (partition_scanUp less l a j fuel i ≤ j →
      key (elem l a) ≤ key (elem l (partition_scanUp less l a j fuel i))) := by
  intro fuel
  induction fuel with
  | zero =>
    intro i hf
    unfold partition_scanUp
    exact ⟨le_refl _, Or.inr rfl, by intro k h1 h2; omega, by intro h; omega⟩
  | succ fuel ih =>
    intro i hf
    unfold partition_scanUp
    by_cases hc : (decide (i ≤ j) && less (elem l i) (elem l a)) = true
    · rw [if_pos hc]
      simp only [Bool.and_eq_true, decide_eq_true_eq] at hc
      have hl := (hless _ _).1 hc.2
      obtain ⟨r1, r2, r3, r4⟩ := ih (i + 1) (by omega)
      refine ⟨by omega, by omega, ?_, r4⟩
      intro k hk1 hk2
      by_cases hki : k = i
      · subst hki; exact hl
      · exact r3 k (by omega) hk2
    · rw [if_neg hc]
      simp only [Bool.and_eq_true, decide_eq_true_eq, not_and] at hc
      refine ⟨le_refl _, Or.inr rfl, by intro k h1 h2; omega, ?_⟩
      intro h
      have := (hless (elem l i) (elem l a)).not.1 (hc h)
      omega

theorem partition_scanDown_spec {less : α → α → Bool} {key : α → Int} (hless : KeyOrder less key)
    (l : List α) (a i : Nat) (hi : 1 ≤ i) : ∀ (fuel j : Nat), j + 1 - i ≤ fuel →
    partition_scanDown less l a i fuel j ≤ j ∧
    (i ≤ partition_scanDown less l a i fuel j + 1 ∨ partition_scanDown less l a i fuel j = j) ∧
    (∀ k, partition_scanDown less l a i fuel j < k → k ≤ j → key (elem l a) ≤ key (elem l k)) ∧
    (i ≤ partition_scanDown less l a i fuel j →
      key (elem l (partition_scanDown less l a i fuel j)) < key (elem l a)) := by
  intro fuel
  induction fuel with
  | zero =>
    intro j hf
    unfold partition_scanDown
    exact ⟨le_refl _, Or.inr rfl, by intro k h1 h2; omega, by intro h; omega⟩
  | succ fuel ih =>
    intro j hf
    unfold partition_scanDown
    by_cases hc : (decide (i ≤ j) && !less (elem l j) (elem l a)) = true
    · rw [if_pos hc]
      simp only [Bool.and_eq_true, decide_eq_true_eq, Bool.not_eq_true', ← Bool.not_eq_true] at hc
      have hl := (hless _ _).not.1 hc.2
      obtain ⟨r1, r2, r3, r4⟩ := ih (j - 1) (by omega)
      refine ⟨by omega, by omega, ?_, r4⟩
      intro k hk1 hk2
      by_cases hkj : k = j
      · subst hkj; omega
      · exact r3 k hk1 (by omega)
    · rw [if_neg hc]
      simp only [Bool.and_eq_true, decide_eq_true_eq, not_and, Bool.not_eq_true',
        Bool.not_eq_false] at hc
      refine ⟨le_refl _, Or.inr rfl, by intro k h1 h2; omega, ?_⟩
      intro h
      exact (hless _ _).1 (hc h)

theorem partition_step {less : α → α → Bool} {key : α → Int} (hless : KeyOrder less key)
    (l : List α) (a b i j : Nat) (hinv : PartInv key l a b i j) (i' j' : Nat)
    (hi' : i' = partition_scanUp less l a j (j + 1 - i) i)
    (hj' : j' = partition_scanDown less l a i' (j + 1 - i') j) :
    (i' > j' → PartPost key l a b j') ∧
    (¬ i' > j' → PartInv key (swap l i' j') a b (i' + 1) (j' - 1) ∧
      j' - 1 + 1 - (i' + 1) < j + 1 - i ∧ a + 1 ≤ i' ∧ i' < j' ∧ j' < b) := by
  obtain ⟨h1, h2, h3, h4, h5, h6⟩ := hinv
  obtain ⟨u1, u2, u3, u4⟩ := partition_scanUp_spec hless l a j (j + 1 - i) i (le_refl _)
  rw [← hi'] at u1 u2 u3 u4
  obtain ⟨d1, d2, d3, d4⟩ := partition_scanDown_spec hless l a i' (by omega) (j + 1 - i') j
    (le_refl _)
  rw [← hj'] at d1 d2 d3 d4
  have hlow : ∀ k, a + 1 ≤ k → k < i' → key (elem l k) < key (elem l a) := by
    intro k hk1 hk2
    rcases Nat.lt_or_ge k i with h | h
    · exact h5 k hk1 h
    · exact u3 k h hk2
  have hhigh : ∀ k, j' < k → k < b → key (elem l a) ≤ key (elem l k) := by
    intro k hk1 hk2
    rcases Nat.lt_or_ge j k with h | h
    · exact h6 k h hk2
    · exact d3 k hk1 h
  constructor
  · intro hgt
    refine ⟨by omega, by omega, h4, ?_, hhigh⟩
    intro k hk1 hk2
    exact hlow k hk1 (by omega)
  · intro hgt
    have hij : i' ≤ j' := by omega
    have a1 := u4 (by omega)
    have a2 := d4 hij
    have hne : i' ≠ j' := by
      intro h; rw [h] at a1; omega
    have hlt : i' < j' := by omega
    have hi1 : i' < l.length := by omega
    have hj1 : j' < l.length := by omega
    have e1 := elem_swap_left l i' j' hi1 hj1
    have e2 := elem_swap_right l i' j' hi1 hj1
    have e3 := fun k h1 h2 => elem_swap_ne l i' j' k hi1 hj1 h1 h2
    refine ⟨⟨by omega, by omega, by omega, by rw [length_swap]; exact h4, ?_, ?_⟩, by omega,
      by omega, hlt, by omega⟩
    · intro k hk1 hk2
      rw [e3 a (by omega) (by omega)]
      by_cases hk : k = i'
      · subst hk; rw [e1]; exact a2
      · rw [e3 k hk (by omega)]
        exact hlow k hk1 (by omega)
    · intro k hk1 hk2
      rw [e3 a (by omega) (by omega)]
      by_cases hk : k = j'
      · subst hk; rw [e2]; exact a1
      · rw [e3 k (by omega) hk]
        exact hhigh k (by omega) hk2

theorem partition_loop_spec {less : α → α → Bool} {key : α → Int} (hless : KeyOrder less key)
    (a b : Nat) : ∀ (fuel i j : Nat) (l : List α), j + 1 - i ≤ fuel → PartInv key l a b i j →
    Rearr (a + 1) b l (partition_loop less a fuel i j l).1 ∧
      PartPost key (partition_loop less a fuel i j l).1 a b (partition_loop less a fuel i j l).2 := by
  intro fuel
  induction fuel with
  | zero =>
    intro i j l hf hinv
    unfold partition_loop
    obtain ⟨h1, h2, h3, h4, h5, h6⟩ := hinv
    refine ⟨Rearr.refl _, by omega, h3, h4, ?_, h6⟩
    intro k hk1 hk2
    exact h5 k hk1 (by omega)
  | succ fuel ih =>
    intro i j l hf hinv
    unfold partition_loop
    simp only []
    have hs := partition_step hless l a b i j hinv _ _ rfl rfl
    by_cases hgt : partition_scanUp less l a j (j + 1 - i) i >
        partition_scanDown less l a (partition_scanUp less l a j (j + 1 - i) i)
          (j + 1 - partition_scanUp less l a j (j + 1 - i) i) j
    · rw [if_pos hgt]
      exact ⟨Rearr.refl _, hs.1 hgt⟩
    · rw [if_neg hgt]
      obtain ⟨g1, g2, g3, g4, g5⟩ := hs.2 hgt
      have hrec := ih _ _ _ (by omega) g1
      exact ⟨(Rearr.swap l _ _ g3 (by omega) (by omega) g5 hinv.2.2.2.1).trans hrec.1, hrec.2⟩

theorem partition_finish {key : α → Int} (l : List α) (a b j : Nat)
    (hp : PartPost key l a b j) :
    Rearr a b l (swap l j a) ∧ a ≤ j ∧ j < b ∧
    (∀ k, a ≤ k → k < j → key (elem (swap l j a) k) < key (elem (swap l j a) j)) ∧
    (∀ k, j < k → k < b → key (elem (swap l j a) j) ≤ key (elem (swap l j a) k)) := by
  obtain ⟨h1, h2, h3, h4, h5⟩ := hp
  have hj1 : j < l.length := by omega
  have ha1 : a < l.length := by omega
  have e1 := elem_swap_left l j a hj1 ha1
  have e2 := elem_swap_right l j a hj1 ha1
  have e3 := fun k h1 h2 => elem_swap_ne l j a k hj1 ha1 h1 h2
  refine ⟨Rearr.swap l j a h1 h2 (le_refl _) (by omega) h3, h1, h2, ?_, ?_⟩
  · intro k hk1 hk2
    rw [e1]
    by_cases hk : k = a
    · subst hk; rw [e2]; exact h4 j (by omega) (le_refl _)
    · rw [e3 k (by omega) hk]; exact h4 k (by omega) (by omega)
  · intro k hk1 hk2
    rw [e1, e3 k (by omega) (by omega)]
    exact h5 k hk1 hk2

theorem partition_func_spec {less : α → α → Bool} {key : α → Int} (hless : KeyOrder less key)
    (l : List α) (a b pivot : Nat) (hab : a < b) (hb : b ≤ l.length) (hp1 : a ≤ pivot)
    (hp2 : pivot < b) :
    Rearr a b l (partition_func less l a b pivot).1 ∧
    a ≤ (partition_func less l a b pivot).2.1 ∧ (partition_func less l a b pivot).2.1 < b ∧
    (∀ k, a ≤ k → k < (partition_func less l a b pivot).2.1 →
      key (elem (partition_func less l a b pivot).1 k) <
        key (elem (partition_func less l a b pivot).1 (partition_func less l a b pivot).2.1)) ∧
    (∀ k, (partition_func less l a b pivot).2.1 < k → k < b →
      key (elem (partition_func less l a b pivot).1 (partition_func less l a b pivot).2.1) ≤
        key (elem (partition_func less l a b pivot).1 k)) := by
  have hsw : Rearr a b l (swap l a pivot) :=
    Rearr.swap l a pivot (le_refl _) hab hp1 hp2 hb
  have hinv : PartInv key (swap l a pivot) a b (a + 1) (b - 1) :=
    ⟨le_refl _, by omega, by omega, by rw [length_swap]; exact hb, by intro k h1 h2; omega,
      by intro k h1 h2; omega⟩
  unfold partition_func
  simp only []
  obtain ⟨i', hi'⟩ : ∃ i', i' =
      partition_scanUp less (swap l a pivot) a (b - 1) (b - 1 + 1 - (a + 1)) (a + 1) := ⟨_, rfl⟩
  rw [← hi']
  obtain ⟨j', hj'⟩ : ∃ j', j' =
      partition_scanDown less (swap l a pivot) a i' (b - 1 + 1 - i') (b - 1) := ⟨_, rfl⟩
  rw [← hj']
  have hs := partition_step hless (swap l a pivot) a b (a + 1) (b - 1) hinv i' j' hi' hj'
  by_cases hgt : i' > j'
  · rw [if_pos hgt]
    have hf := partition_finish _ a b _ (hs.1 hgt)
    exact ⟨hsw.trans hf.1, hf.2⟩
  · rw [if_neg hgt]
    obtain ⟨g1, g2, g3, g4, g5⟩ := hs.2 hgt
    have hlp := partition_loop_spec hless a b (j' - i') (i' + 1) (j' - 1) (swap (swap l a pivot) i' j')
      (by omega) g1
    have hf := partition_finish _ a b _ hlp.2
    refine ⟨?_, hf.2⟩
    exact hsw.trans ((Rearr.swap _ _ _ (by omega) (by omega) (by omega) g5 hinv.2.2.2.1).trans
      ((hlp.1.mono (by omega) (le_refl _)).trans hf.1))

theorem partitionEqual_scanUp_spec {less : α → α → Bool} {key : α → Int}
    (hless : KeyOrder less key) (l : List α) (a j : Nat) : ∀ (fuel i : Nat), j + 1 - i ≤ fuel →
    i ≤ partitionEqual_scanUp less l a j fuel i ∧
    (partitionEqual_scanUp less l a j fuel i ≤ j + 1 ∨
      partitionEqual_scanUp less l a j fuel i = i) ∧
    (∀ k, i ≤ k → k < partitionEqual_scanUp less l a j fuel i →
      key (elem l k) ≤ key (elem l a)) ∧
    (partitionEqual_scanUp less l a j fuel i ≤ j →
      key (elem l a) < key (elem l (partitionEqual_scanUp less l a j fuel i))) := by
  intro fuel
  induction fuel with
  | zero =>
    intro i hf
    unfold partitionEqual_scanUp
    exact ⟨le_refl _, Or.inr rfl, by intro k h1 h2; omega, by intro h; omega⟩
  | succ fuel ih =>
    intro i hf
    unfold partitionEqual_scanUp
    by_cases hc : (decide (i ≤ j) && !less (elem l a) (elem l i)) = true
    · rw [if_pos hc]
      simp only [Bool.and_eq_true, decide_eq_true_eq, Bool.not_eq_true', ← Bool.not_eq_true] at hc
      have hl := (hless _ _).not.1 hc.2
      obtain ⟨r1, r2, r3, r4⟩ := ih (i + 1) (by omega)
      refine ⟨by omega, by omega, ?_, r4⟩
      intro k hk1 hk2
      by_cases hki : k = i
      · subst hki; omega
      · exact r3 k (by omega) hk2
    · rw [if_neg hc]
      simp only [Bool.and_eq_true, decide_eq_true_eq, not_and, Bool.not_eq_true',
        Bool.not_eq_false] at hc
      refine ⟨le_refl _, Or.inr rfl, by intro k h1 h2; omega, ?_⟩
      intro h
      exact (hless _ _).1 (hc h)

theorem partitionEqual_scanDown_spec {less : α → α → Bool} {key : α → Int}
    (hless : KeyOrder less key) (l : List α) (a i : Nat) (hi : 1 ≤ i) :
    ∀ (fuel j : Nat), j + 1 - i ≤ fuel →
    partitionEqual_scanDown less l a i fuel j ≤ j ∧
    (i ≤ partitionEqual_scanDown less l a i fuel j + 1 ∨
      partitionEqual_scanDown less l a i fuel j = j) ∧
    (∀ k, partitionEqual_scanDown less l a i fuel j < k → k ≤ j →
      key (elem l a) < key (elem l k)) ∧
    (i ≤ partitionEqual_scanDown less l a i fuel j →
      key (elem l (partitionEqual_scanDown less l a i fuel j)) ≤ key (elem l a)) := by
  intro fuel
  induction fuel with
  | zero =>
    intro j hf
    unfold partitionEqual_scanDown
    exact ⟨le_refl _, Or.inr rfl, by intro k h1 h2; omega, by intro h; omega⟩
  | succ fuel ih =>
    intro j hf
    unfold partitionEqual_scanDown
    by_cases hc : (decide (i ≤ j) && less (elem l a) (elem l j)) = true
    · rw [if_pos hc]
      simp only [Bool.and_eq_true, decide_eq_true_eq] at hc
      have hl := (hless _ _).1 hc.2
      obtain ⟨r1, r2, r3, r4⟩ := ih (j - 1) (by omega)
      refine ⟨by omega, by omega, ?_, r4⟩
      intro k hk1 hk2
      by_cases hkj : k = j
      · subst hkj; exact hl
      · exact r3 k hk1 (by omega)
    · rw [if_neg hc]
      simp only [Bool.and_eq_true, decide_eq_true_eq, not_and] at hc
      refine ⟨le_refl _, Or.inr rfl, by intro k h1 h2; omega, ?_⟩
      intro h
      have := (hless (elem l a) (elem l j)).not.1 (hc h)
      omega

theorem partitionEqual_loop_spec {less : α → α → Bool} {key : α → Int}
    (hless : KeyOrder less key) (a b : Nat) : ∀ (fuel i j : Nat) (l : List α),
    j + 1 - i ≤ fuel → EqInv key l a b i j →
    Rearr (a + 1) b l (partitionEqual_loop less a fuel i j l).1 ∧
      EqPost key (partitionEqual_loop less a fuel i j l).1 a b
        (partitionEqual_loop less a fuel i j l).2 := by
  intro fuel
  induction fuel with
  | zero =>
    intro i j l hf hinv
    unfold partitionEqual_loop
    obtain ⟨h1, h2, h3, h4, h5, h6⟩ := hinv
    refine ⟨Rearr.refl _, h1, by omega, h5, ?_⟩
    intro k hk1 hk2
    exact h6 k (by omega) hk2
  | succ fuel ih =>
    intro i j l hf hinv
    unfold partitionEqual_loop
    simp only []
    obtain ⟨i', hi'⟩ : ∃ i', i' = partitionEqual_scanUp less l a j (j + 1 - i) i := ⟨_, rfl⟩
    rw [← hi']
    obtain ⟨j', hj'⟩ : ∃ j', j' = partitionEqual_scanDown less l a i' (j + 1 - i') j := ⟨_, rfl⟩
    rw [← hj']
    obtain ⟨h1, h2, h3, h4, h5, h6⟩ := hinv
    obtain ⟨u1, u2, u3, u4⟩ := partitionEqual_scanUp_spec hless l a j (j + 1 - i) i (le_refl _)
    rw [← hi'] at u1 u2 u3 u4
    obtain ⟨d1, d2, d3, d4⟩ := partitionEqual_scanDown_spec hless l a i' (by omega)
      (j + 1 - i') j (le_refl _)
    rw [← hj'] at d1 d2 d3 d4
    have hlow : ∀ k, a + 1 ≤ k → k < i' → key (elem l k) ≤ key (elem l a) := by
      intro k hk1 hk2
      rcases Nat.lt_or_ge k i with h | h
      · exact h5 k hk1 h
      · exact u3 k h hk2
    have hhigh : ∀ k, j' < k → k < b → key (elem l a) < key (elem l k) := by
      intro k hk1 hk2
      rcases Nat.lt_or_ge j k with h | h
      · exact h6 k h hk2
      · exact d3 k hk1 h
    by_cases hgt : i' > j'
    · rw [if_pos hgt]
      refine ⟨Rearr.refl _, by omega, by omega, hlow, ?_⟩
      intro k hk1 hk2
      exact hhigh k (by omega) hk2
    · rw [if_neg hgt]
      have hij : i' ≤ j' := by omega
      have a1 := u4 (by omega)
      have a2 := d4 hij
      have hne : i' ≠ j' := by
        intro h; rw [h] at a1; omega
      have hi1 : i' < l.length := by omega
      have hj1 : j' < l.length := by omega
      have e1 := elem_swap_left l i' j' hi1 hj1
      have e2 := elem_swap_right l i' j' hi1 hj1
      have e3 := fun k h1 h2 => elem_swap_ne l i' j' k hi1 hj1 h1 h2
      have hrec := ih (i' + 1) (j' - 1) (swap l i' j') (by omega)
        ⟨by omega, by omega, by omega, by rw [length_swap]; exact h4,
          by
            intro k hk1 hk2
            rw [e3 a (by omega) (by omega)]
            by_cases hk : k = i'
            · subst hk; rw [e1]; exact a2
            · rw [e3 k hk (by omega)]
              exact hlow k hk1 (by omega),
          by
            intro k hk1 hk2
            rw [e3 a (by omega) (by omega)]
            by_cases hk : k = j'
            · subst hk; rw [e2]; exact a1
            · rw [e3 k (by omega) hk]
              exact hhigh k (by omega) hk2⟩
      exact ⟨(Rearr.swap l _ _ (by omega) (by omega) (by omega) (by omega) h4).trans hrec.1,
        hrec.2⟩

theorem partitionEqual_func_spec {less : α → α → Bool} {key : α → Int}
    (hless : KeyOrder less key) (l : List α) (a b pivot : Nat) (hab : a < b) (hb : b ≤ l.length)
    (hp1 : a ≤ pivot) (hp2 : pivot < b) :
    Rearr a b l (partitionEqual_func less l a b pivot).1 ∧
    a < (partitionEqual_func less l a b pivot).2 ∧ (partitionEqual_func less l a b pivot).2 ≤ b ∧
    (∀ k, a ≤ k → k < (partitionEqual_func less l a b pivot).2 →
      key (elem (partitionEqual_func less l a b pivot).1 k) ≤ key (elem l pivot)) ∧
    (∀ k, (partitionEqual_func less l a b pivot).2 ≤ k → k < b →
      key (elem l pivot) < key (elem (partitionEqual_func less l a b pivot).1 k)) := by
  have hsw : Rearr a b l (swap l a pivot) :=
    Rearr.swap l a pivot (le_refl _) hab hp1 hp2 hb
  have hinv : EqInv key (swap l a pivot) a b (a + 1) (b - 1) :=
    ⟨le_refl _, by omega, by omega, by rw [length_swap]; exact hb, by intro k h1 h2; omega,
      by intro k h1 h2; omega⟩
  unfold partitionEqual_func
  simp only []
  have hlp := partitionEqual_loop_spec hless a b (b - a) (a + 1) (b - 1) (swap l a pivot)
    (by omega) hinv
  obtain ⟨r1, r2, r3, r4, r5⟩ := hlp
  have ea : elem (partitionEqual_loop less a (b - a) (a + 1) (b - 1) (swap l a pivot)).1 a =
      elem l pivot := by
    rw [r1.outside a (by omega)]
    exact elem_swap_left l a pivot (by omega) (by omega)
  rw [ea] at r4 r5
  refine ⟨hsw.trans (r1.mono (by omega) (le_refl _)), by omega, r3, ?_, r5⟩
  intro k hk1 hk2
  by_cases hk : k = a
  · subst hk; rw [ea]
  · exact r4 k (by omega) hk2

theorem LB.of_rearr {key : α → Int} {l l' : List α} {a b : Nat} (h : LB key l a b)
    (hr : Rearr a b l l') : LB key l' a b := by
  intro ha k hk1 hk2
  rw [hr.outside (a - 1) (by omega)]
  exact hr.forall_mem (fun e => key (elem l (a - 1)) ≤ key e) (h ha) k hk1 hk2

theorem order2_func_mem (less : α → α → Bool) (data : List α) (a b s : Nat) :
    ((order2_func less data a b s).1 = a ∧ (order2_func less data a b s).2.1 = b) ∨
    ((order2_func less data a b s).1 = b ∧ (order2_func less data a b s).2.1 = a) := by
  unfold order2_func
  split_ifs
  · right; exact ⟨rfl, rfl⟩
  · left; exact ⟨rfl, rfl⟩

theorem median_func_mem (less : α → α → Bool) (data : List α) (a b c s : Nat) :
    (median_func less data a b c s).1 = a ∨ (median_func less data a b c s).1 = b ∨
      (median_func less data a b c s).1 = c := by
  unfold median_func order2_func
  simp only []
  split_ifs <;> simp

theorem medianAdjacent_func_mem (less : α → α → Bool) (data : List α) (a s : Nat) :
    (medianAdjacent_func less data a s).1 = a - 1 ∨ (medianAdjacent_func less data a s).1 = a ∨
      (medianAdjacent_func less data a s).1 = a + 1 :=
  median_func_mem less data (a - 1) a (a + 1) s

theorem choosePivot_func_fst (less : α → α → Bool) (data : List α) (a b : Nat) :
    (choosePivot_func less data a b).1 =
      (if b - a ≥ 8 then
        if b - a ≥ 50 then
          median_func less data
            (medianAdjacent_func less data (a + (b - a) / 4 * 1) 0).1
            (medianAdjacent_func less data (a + (b - a) / 4 * 2)
              (medianAdjacent_func less data (a + (b - a) / 4 * 1) 0).2).1
            (medianAdjacent_func less data (a + (b - a) / 4 * 3)
              (medianAdjacent_func less data (a + (b - a) / 4 * 2)
                (medianAdjacent_func less data (a + (b - a) / 4 * 1) 0).2).2).1
            (medianAdjacent_func less data (a + (b - a) / 4 * 3)
              (medianAdjacent_func less data (a + (b - a) / 4 * 2)
                (medianAdjacent_func less data (a + (b - a) / 4 * 1) 0).2).2).2
        else median_func less data (a + (b - a) / 4 * 1) (a + (b - a) / 4 * 2)
          (a + (b - a) / 4 * 3) 0
      else (a + (b - a) / 4 * 2, 0)).1 := by
  unfold choosePivot_func
  simp only []
  split_ifs <;> rfl

theorem choosePivot_func_range (less : α → α → Bool) (data : List α) (a b : Nat) (hab : a < b) :
    a ≤ (choosePivot_func less data a b).1 ∧ (choosePivot_func less data a b).1 < b := by
  rw [choosePivot_func_fst]
  by_cases h8 : b - a ≥ 8
  · rw [if_pos h8]
    by_cases h50 : b - a ≥ 50
    · rw [if_pos h50]
      have m1 := medianAdjacent_func_mem less data (a + (b - a) / 4 * 1) 0
      have m2 := medianAdjacent_func_mem less data (a + (b - a) / 4 * 2)
        (medianAdjacent_func less data (a + (b - a) / 4 * 1) 0).2
      have m3 := medianAdjacent_func_mem less data (a + (b - a) / 4 * 3)
        (medianAdjacent_func less data (a + (b - a) / 4 * 2)
          (medianAdjacent_func less data (a + (b - a) / 4 * 1) 0).2).2
      have m := median_func_mem less data
        (medianAdjacent_func less data (a + (b - a) / 4 * 1) 0).1
        (medianAdjacent_func less data (a + (b - a) / 4 * 2)
          (medianAdjacent_func less data (a + (b - a) / 4 * 1) 0).2).1
        (medianAdjacent_func less data (a + (b - a) / 4 * 3)
          (medianAdjacent_func less data (a + (b - a) / 4 * 2)
            (medianAdjacent_func less data (a + (b - a) / 4 * 1) 0).2).2).1
        (medianAdjacent_func less data (a + (b - a) / 4 * 3)
          (medianAdjacent_func less data (a + (b - a) / 4 * 2)
            (medianAdjacent_func less data (a + (b - a) / 4 * 1) 0).2).2).2
      omega
    · rw [if_neg h50]
      have m := median_func_mem less data (a + (b - a) / 4 * 1) (a + (b - a) / 4 * 2)
        (a + (b - a) / 4 * 3) 0
      omega
  · rw [if_neg h8]
    simp only []
    omega

theorem reverseRange_loop_spec (a b : Nat) : ∀ (fuel i j : Nat) (l : List α), a ≤ i → j < b →
    b ≤ l.length → Rearr a b l (reverseRange_loop fuel i j l) := by
  intro fuel
  induction fuel with
  | zero => intro i j l _ _ _; exact Rearr.refl _
  | succ fuel ih =>
    intro i j l hi hj hb
    unfold reverseRange_loop
    split_ifs with h
    · exact (Rearr.swap l i j hi (by omega) (by omega) hj hb).trans
        (ih (i + 1) (j - 1) _ (by omega) (by omega) (by rw [length_swap]; exact hb))
    · exact Rearr.refl _

theorem reverseRange_func_spec (l : List α) (a b : Nat) (hab : a < b) (hb : b ≤ l.length) :
    Rearr a b l (reverseRange_func l a b) := by
  unfold reverseRange_func
  exact reverseRange_loop_spec a b _ a (b - 1) l (le_refl _) (by omega) hb

theorem bitsLen_loop_le : ∀ (fuel x : Nat), 1 ≤ x → 2 ^ bitsLen_loop fuel x ≤ 2 * x := by
  intro fuel
  induction fuel with
  | zero => intro x hx; simp [bitsLen_loop]; omega
  | succ fuel ih =>
    intro x hx
    unfold bitsLen_loop
    rw [if_neg (by omega)]
    rcases Nat.eq_zero_or_pos (x / 2) with h0 | h0
    · rw [h0]
      have : bitsLen_loop fuel 0 = 0 := by
        cases fuel with
        | zero => rfl
        | succ f => simp [bitsLen_loop]
      rw [this]; simp; omega
    · have := ih (x / 2) h0
      rw [pow_succ]
      omega

theorem nextPowerOfTwo_le (length : Nat) (h : 1 ≤ length) : nextPowerOfTwo length ≤ 2 * length :=
  bitsLen_loop_le length length h

theorem breakPatterns_loop_spec (a b length modulus idx : Nat) (hlen : length = b - a)
    (hpos : 1 ≤ length) (hmod : modulus ≤ 2 * length) (hidx1 : a ≤ idx) (hidx2 : idx + 2 < b) :
    ∀ (n i random : Nat) (l : List α), i + n ≤ 3 → b ≤ l.length →
    Rearr a b l (breakPatterns_loop a length modulus idx n i random l) := by
  intro n
  induction n with
  | zero => intro i random l _ _; exact Rearr.refl _
  | succ n ih =>
    intro i random l hi hb
    unfold breakPatterns_loop
    simp only []
    have hand : Nat.land (xorshift_Next random) (modulus - 1) ≤ modulus - 1 := Nat.and_le_right
    have hother : (if Nat.land (xorshift_Next random) (modulus - 1) ≥ length then
        Nat.land (xorshift_Next random) (modulus - 1) - length
        else Nat.land (xorshift_Next random) (modulus - 1)) < length := by
      split_ifs with h
      · omega
      · omega
    exact (Rearr.swap l _ _ (by omega) (by omega) (by omega) (by omega) hb).trans
      (ih (i + 1) _ _ (by omega) (by rw [length_swap]; exact hb))

theorem breakPatterns_func_spec (l : List α) (a b : Nat) (hb : b ≤ l.length) :
    Rearr a b l (breakPatterns_func l a b) := by
  unfold breakPatterns_func
  simp only []
  split_ifs with h
  · exact breakPatterns_loop_spec a b (b - a) (nextPowerOfTwo (b - a)) (a + (b - a) / 4 * 2 - 1)
      rfl (by omega) (nextPowerOfTwo_le _ (by omega)) (by omega) (by omega) 3 0 _ l (by omega) hb
  · exact Rearr.refl _

theorem SortedOn.snoc {key : α → Int} {l : List α} {a i : Nat} (h : SortedOn key l a i)
    (hai : a < i) (hle : key (elem l (i - 1)) ≤ key (elem l i)) : SortedOn key l a (i + 1) := by
  intro x y hx hxy hy
  rcases Nat.lt_or_ge y i with h1 | h1
  · exact h x y hx hxy h1
  · have hyi : y = i := by omega
    subst hyi
    rcases Nat.lt_or_ge x y with h2 | h2
    · have := h x (y - 1) hx (by omega) (by omega)
      omega
    · have : x = y := by omega
      subst this; exact le_refl _

theorem partialInsertionSort_scan_spec {less : α → α → Bool} {key : α → Int}
    (hless : KeyOrder less key) (l : List α) (a b : Nat) : ∀ (fuel i : Nat), b - i ≤ fuel →
    a < i → i ≤ b → SortedOn key l a i →
    i ≤ partialInsertionSort_scan less l b fuel i ∧
    partialInsertionSort_scan less l b fuel i ≤ b ∧
    SortedOn key l a (partialInsertionSort_scan less l b fuel i) ∧
    (partialInsertionSort_scan less l b fuel i < b →
      key (elem l (partialInsertionSort_scan less l b fuel i)) <
        key (elem l (partialInsertionSort_scan less l b fuel i - 1))) := by
  intro fuel
  induction fuel with
  | zero =>
    intro i hf hai hib hs
    unfold partialInsertionSort_scan
    exact ⟨le_refl _, hib, hs, by intro h; omega⟩
  | succ fuel ih =>
    intro i hf hai hib hs
    unfold partialInsertionSort_scan
    by_cases hc : (decide (i < b) && !less (elem l i) (elem l (i - 1))) = true
    · rw [if_pos hc]
      simp only [Bool.and_eq_true, decide_eq_true_eq, Bool.not_eq_true', ← Bool.not_eq_true] at hc
      have hl := (hless _ _).not.1 hc.2
      obtain ⟨r1, r2, r3, r4⟩ := ih (i + 1) (by omega) (by omega) (by omega)
        (hs.snoc hai (by omega))
      exact ⟨by omega, r2, r3, r4⟩
    · rw [if_neg hc]
      simp only [Bool.and_eq_true, decide_eq_true_eq, not_and, Bool.not_eq_true',
        Bool.not_eq_false] at hc
      refine ⟨le_refl _, hib, hs, ?_⟩
      intro h
      exact (hless _ _).1 (hc h)

theorem partialInsertionSort_shiftLeft_eq {less : α → α → Bool} {key : α → Int}
    (hless : KeyOrder less key) (a b : Nat) : ∀ (j : Nat) (l : List α), a ≤ j → j < b →
    b ≤ l.length → LB key l a b →
    partialInsertionSort_shiftLeft less j l = insertionSort_inner less a j l := by
  intro j
  induction j with
  | zero => intro l _ _ _ _; rfl
  | succ j ih =>
    intro l haj hjb hb hlb
    unfold partialInsertionSort_shiftLeft insertionSort_inner
    rcases Nat.lt_or_ge a (j + 1) with h | h
    · by_cases hl : less (elem l (j + 1)) (elem l j) = true
      · have hsw : Rearr a b l (swap l (j + 1) j) :=
          Rearr.swap l (j + 1) j (by omega) hjb (by omega) (by omega) hb
        simp only [hl, h, decide_True, Bool.and_self, Bool.not_true, if_true]
        simp only [Bool.false_eq_true, if_false]
        exact ih _ (by omega) (by omega) (by rw [length_swap]; exact hb) (hlb.of_rearr hsw)
      · simp [hl]
    · have haj' : a = j + 1 := by omega
      have h0 := hlb (by omega) (j + 1) (by omega) hjb
      have e : a - 1 = j := by omega
      rw [e] at h0
      have hn : ¬ less (elem l (j + 1)) (elem l j) = true := by
        rw [hless]; omega
      simp [hn]

theorem partialInsertionSort_shiftRight_spec (less : α → α → Bool) (lo b : Nat) :
    ∀ (fuel j : Nat) (l : List α), lo + 1 ≤ j → b ≤ l.length →
    Rearr lo b l (partialInsertionSort_shiftRight less b fuel j l) := by
  intro fuel
  induction fuel with
  | zero => intro j l _ _; exact Rearr.refl _
  | succ fuel ih =>
    intro j l hj hb
    unfold partialInsertionSort_shiftRight
    split_ifs with h1 h2
    · exact Rearr.refl _
    · exact (Rearr.swap l j (j - 1) (by omega) h1 (by omega) (by omega) hb).trans
        (ih (j + 1) _ (by omega) (by rw [length_swap]; exact hb))
    · exact Rearr.refl _

theorem partialInsertionSort_loop_spec {less : α → α → Bool} {key : α → Int}
    (hless : KeyOrder less key) (a b : Nat) : ∀ (steps i : Nat) (l : List α), a < i → i ≤ b →
    b ≤ l.length → SortedOn key l a i → LB key l a b →
    Rearr a b l (partialInsertionSort_loop less a b steps i l).1 ∧
      ((partialInsertionSort_loop less a b steps i l).2 = true →
        SortedOn key (partialInsertionSort_loop less a b steps i l).1 a b) := by
  intro steps
  induction steps with
  | zero =>
    intro i l _ _ _ _ _
    unfold partialInsertionSort_loop
    exact ⟨Rearr.refl _, by intro h; simp at h⟩
  | succ steps ih =>
    intro i l hai hib hb hs hlb
    unfold partialInsertionSort_loop
    simp only []
    obtain ⟨i', hi'⟩ : ∃ i', i' = partialInsertionSort_scan less l b (b - i) i := ⟨_, rfl⟩
    rw [← hi']
    obtain ⟨s1, s2, s3, s4⟩ := partialInsertionSort_scan_spec hless l a b (b - i) i (le_refl _)
      hai hib hs
    rw [← hi'] at s1 s2 s3 s4
    by_cases h1 : i' = b
    · rw [if_pos h1]
      refine ⟨Rearr.refl _, ?_⟩
      intro _
      rw [h1] at s3; exact s3
    · rw [if_neg h1]
      by_cases h2 : b - a < 50
      · rw [if_pos h2]
        exact ⟨Rearr.refl _, by intro h; simp at h⟩
      · rw [if_neg h2]
        have hi1 : i' < l.length := by omega
        have hi0 : i' - 1 < l.length := by omega
        have hsw : Rearr a b l (swap l i' (i' - 1)) :=
          Rearr.swap l i' (i' - 1) (by omega) (by omega) (by omega) (by omega) hb
        have e3 := fun k h1 h2 => elem_swap_ne l i' (i' - 1) k hi1 hi0 h1 h2
        -- shifting the smaller one to the left
        obtain ⟨l2, hl2⟩ : ∃ l2, l2 = (if i' - a ≥ 2 then
            partialInsertionSort_shiftLeft less (i' - 1) (swap l i' (i' - 1))
            else swap l i' (i' - 1)) := ⟨_, rfl⟩
        rw [← hl2]
        have hleft : Rearr a i' (swap l i' (i' - 1)) l2 ∧ SortedOn key l2 a i' := by
          rw [hl2]
          split_ifs with h3
          · rw [partialInsertionSort_shiftLeft_eq hless a b (i' - 1) _ (by omega) (by omega)
              (by rw [length_swap]; exact hb) (hlb.of_rearr hsw)]
            have := insertionSort_inner_spec hless a (i' - 1) (i' - 1) (swap l i' (i' - 1))
              (by omega) (le_refl _) (by rw [length_swap]; omega)
              (by
                intro x y hx hxy hy
                rw [e3 x (by omega) (by omega), e3 y (by omega) (by omega)]
                exact s3 x y hx hxy (by omega))
              (by
                intro x y hx hxy hy
                have : x = y := by omega
                subst this; exact le_refl _)
              (by intro x y _ _ h3 h4; omega)
            have e : i' - 1 + 1 = i' := by omega
            rw [e] at this
            exact this
          · refine ⟨Rearr.refl _, ?_⟩
            intro x y hx hxy hy
            have : x = y := by omega
            subst this; exact le_refl _
        obtain ⟨l3, hl3⟩ : ∃ l3, l3 = (if b - i' ≥ 2 then
            partialInsertionSort_shiftRight less b (b - (i' + 1)) (i' + 1) l2 else l2) := ⟨_, rfl⟩
        rw [← hl3]
        have hlen2 : l2.length = l.length := by rw [hleft.1.length, length_swap]
        have hright : Rearr i' b l2 l3 := by
          rw [hl3]
          split_ifs with h3
          · exact partialInsertionSort_shiftRight_spec less i' b _ _ l2 (le_refl _)
              (by rw [hlen2]; exact hb)
          · exact Rearr.refl _
        have hall : Rearr a b l l3 :=
          hsw.trans ((hleft.1.mono (le_refl _) (by omega)).trans (hright.mono (by omega) (le_refl _)))
        have hrec := ih i' l3 (by omega) s2 (by rw [hall.length]; exact hb)
          (hleft.2.of_rearr_outside hright (Or.inr (le_refl _))) (hlb.of_rearr hall)
        exact ⟨hall.trans hrec.1, hrec.2⟩

theorem partialInsertionSort_func_spec {less : α → α → Bool} {key : α → Int}
    (hless : KeyOrder less key) (l : List α) (a b : Nat) (hab : a < b) (hb : b ≤ l.length)
    (hlb : LB key l a b) :
    Rearr a b l (partialInsertionSort_func less l a b).1 ∧
      ((partialInsertionSort_func less l a b).2 = true →
        SortedOn key (partialInsertionSort_func less l a b).1 a b) := by
  unfold partialInsertionSort_func
  exact partialInsertionSort_loop_spec hless a b 5 (a + 1) l (by omega) (by omega) hb
    (by
      intro x y hx hxy hy
      have : x = y := by omega
      subst this; exact le_refl _) hlb

theorem SortedOn.glue {key : α → Int} {l : List α} {a mid b : Nat}
    (h1 : SortedOn key l a mid) (h2 : SortedOn key l (mid + 1) b)
    (h3 : ∀ k, a ≤ k → k < mid → key (elem l k) ≤ key (elem l mid))
    (h4 : ∀ k, mid < k → k < b → key (elem l mid) ≤ key (elem l k)) : SortedOn key l a b := by
  intro x y hx hxy hy
  rcases Nat.lt_trichotomy x mid with hxm | hxm | hxm
  · rcases Nat.lt_trichotomy y mid with hym | hym | hym
    · exact h1 x y hx hxy hym
    · subst hym; exact h3 x hx hxm
    · have := h3 x hx hxm
      have := h4 y hym hy
      omega
  · subst hxm
    rcases Nat.eq_or_lt_of_le hxy with h | h
    · subst h; exact le_refl _
    · exact h4 y h hy
  · exact h2 x y (by omega) hxy hy

theorem pdqsort_loop_spec {less : α → α → Bool} {key : α → Int} (hless : KeyOrder less key) :
    ∀ (fuel : Nat) (l : List α) (a b limit : Nat) (wb wp : Bool), a ≤ b → b ≤ l.length →
    b - a ≤ fuel → LB key l a b →
    Rearr a b l (pdqsort_loop less fuel l a b limit wb wp) ∧
      SortedOn key (pdqsort_loop less fuel l a b limit wb wp) a b := by
  intro fuel
  induction fuel with
  | zero =>
    intro l a b limit wb wp hab hb hf _
    unfold pdqsort_loop
    exact ⟨Rearr.refl _, by intro x y hx hxy hy; omega⟩
  | succ fuel ih =>
    intro l a b limit wb wp hab hb hf hlb
    unfold pdqsort_loop
    simp only []
    by_cases h12 : b - a ≤ 12
    · rw [if_pos h12]; exact insertionSort_func_spec hless l a b hb
    rw [if_neg h12]
    by_cases hlim : limit = 0
    · rw [if_pos hlim]; exact heapSort_func_spec hless l a b hab hb
    rw [if_neg hlim]
    generalize hd1 : (if (!wb) = true then breakPatterns_func l a b else l) = data1
    generalize (if (!wb) = true then limit - 1 else limit) = limit1
    have r1 : Rearr a b l data1 := by
      rw [← hd1]; split_ifs
      · exact breakPatterns_func_spec l a b hb
      · exact Rearr.refl _
    have hpr := choosePivot_func_range less data1 a b (by omega)
    generalize choosePivot_func less data1 a b = ph at hpr ⊢
    generalize hd2 : (if ph.2 = sortedHint.decreasingHint then reverseRange_func data1 a b
      else data1) = data2
    generalize hpv : (if ph.2 = sortedHint.decreasingHint then b - 1 - (ph.1 - a) else ph.1) = pivot
    generalize (if ph.2 = sortedHint.decreasingHint then sortedHint.increasingHint else ph.2) = hint
    have hb1 : b ≤ data1.length := by rw [r1.length]; exact hb
    have r2 : Rearr a b data1 data2 := by
      rw [← hd2]; split_ifs
      · exact reverseRange_func_spec data1 a b (by omega) hb1
      · exact Rearr.refl _
    have hpiv : a ≤ pivot ∧ pivot < b := by
      rw [← hpv]; split_ifs <;> omega
    have hb2 : b ≤ data2.length := by rw [r2.length]; exact hb1
    have hlb2 : LB key data2 a b := hlb.of_rearr (r1.trans r2)
    generalize hpis : (if (wb && wp && decide (hint = sortedHint.increasingHint)) = true then
      partialInsertionSort_func less data2 a b else (data2, false)) = pis
    have r3 : Rearr a b data2 pis.1 ∧ (pis.2 = true → SortedOn key pis.1 a b) := by
      rw [← hpis]; split_ifs
      · exact partialInsertionSort_func_spec hless data2 a b (by omega) hb2 hlb2
      · exact ⟨Rearr.refl _, by intro h; simp at h⟩
    have r13 : Rearr a b l pis.1 := (r1.trans r2).trans r3.1
    by_cases hp : pis.2 = true
    · rw [if_pos hp]; exact ⟨r13, r3.2 hp⟩
    rw [if_neg hp]
    generalize pis.1 = data3 at r13 ⊢
    have hb3 : b ≤ data3.length := by rw [r13.length]; exact hb
    have hlb3 : LB key data3 a b := hlb.of_rearr r13
    by_cases heq : (decide (a > 0) && !less (elem data3 (a - 1)) (elem data3 pivot)) = true
    · rw [if_pos heq]
      simp only [Bool.and_eq_true, decide_eq_true_eq, Bool.not_eq_true', ← Bool.not_eq_true] at heq
      have hle := (hless _ _).not.1 heq.2
      obtain ⟨q1, q2, q3, q4, q5⟩ := partitionEqual_func_spec hless data3 a b pivot (by omega) hb3
        hpiv.1 hpiv.2
      generalize partitionEqual_func less data3 a b pivot = pe at q1 q2 q3 q4 q5 ⊢
      have hbe : b ≤ pe.1.length := by rw [q1.length]; exact hb3
      have hpmin : ∀ k, a ≤ k → k < b → key (elem data3 pivot) ≤ key (elem data3 k) := by
        intro k hk1 hk2
        have := hlb3 heq.1 k hk1 hk2
        omega
      have hpmin' := q1.forall_mem (fun e => key (elem data3 pivot) ≤ key e) hpmin
      have hrec := ih pe.1 pe.2 b limit1 wb wp q3 hbe (by omega)
        (by
          intro _ k hk1 hk2
          have := q4 (pe.2 - 1) (by omega) (by omega)
          have := q5 k hk1 hk2
          omega)
      refine ⟨r13.trans (q1.trans (hrec.1.mono (by omega) (le_refl _))), ?_⟩
      intro x y hx hxy hy
      rcases Nat.lt_or_ge y pe.2 with hy1 | hy1
      · rw [hrec.1.outside x (by omega), hrec.1.outside y (by omega)]
        have := q4 x hx (by omega)
        have := hpmin' y (by omega) hy
        omega
      · rcases Nat.lt_or_ge x pe.2 with hx1 | hx1
        · rw [hrec.1.outside x (by omega)]
          have := q4 x hx hx1
          have := hrec.1.forall_mem (fun e => key (elem data3 pivot) < key e) q5 y hy1 hy
          simp only [] at this
          omega
        · exact hrec.2 x y hx1 hxy hy
    · rw [if_neg heq]
      obtain ⟨q1, q2, q3, q4, q5⟩ := partition_func_spec hless data3 a b pivot (by omega) hb3
        hpiv.1 hpiv.2
      generalize partition_func less data3 a b pivot = pt at q1 q2 q3 q4 q5 ⊢
      have hbt : b ≤ pt.1.length := by rw [q1.length]; exact hb3
      have hlbt : LB key pt.1 a b := hlb3.of_rearr q1
      have r14 : Rearr a b l pt.1 := r13.trans q1
      by_cases hlr : pt.2.1 - a < b - pt.2.1
      · rw [if_pos hlr]
        have hrec1 := ih pt.1 a pt.2.1 limit1 true true q2 (by omega) (by omega)
          (by intro ha k hk1 hk2; exact hlbt ha k hk1 (by omega))
        generalize pdqsort_loop less fuel pt.1 a pt.2.1 limit1 true true = data4 at hrec1 ⊢
        have em : elem data4 pt.2.1 = elem pt.1 pt.2.1 := hrec1.1.outside _ (by omega)
        have hhi : ∀ k, pt.2.1 < k → k < b → key (elem data4 pt.2.1) ≤ key (elem data4 k) := by
          intro k hk1 hk2
          rw [em, hrec1.1.outside k (by omega)]
          exact q5 k hk1 hk2
        have hlo : ∀ k, a ≤ k → k < pt.2.1 → key (elem data4 k) ≤ key (elem data4 pt.2.1) := by
          intro k hk1 hk2
          rw [em]
          have := hrec1.1.forall_mem (fun e => key e < key (elem pt.1 pt.2.1)) q4 k hk1 hk2
          simp only [] at this
          omega
        have hrec2 := ih data4 (pt.2.1 + 1) b limit1 (decide (pt.2.1 - a ≥ (b - a) / 8)) pt.2.2
          (by omega) (by rw [hrec1.1.length]; exact hbt) (by omega)
          (by
            intro _ k hk1 hk2
            have e : pt.2.1 + 1 - 1 = pt.2.1 := by omega
            rw [e]
            exact hhi k (by omega) hk2)
        generalize pdqsort_loop less fuel data4 (pt.2.1 + 1) b limit1
          (decide (pt.2.1 - a ≥ (b - a) / 8)) pt.2.2 = data5 at hrec2 ⊢
        refine ⟨r14.trans ((hrec1.1.mono (le_refl _) (by omega)).trans
          (hrec2.1.mono (by omega) (le_refl _))), ?_⟩
        have em2 : elem data5 pt.2.1 = elem data4 pt.2.1 := hrec2.1.outside _ (by omega)
        apply SortedOn.glue (hrec1.2.of_rearr_outside hrec2.1 (Or.inr (by omega))) hrec2.2
        · intro k hk1 hk2
          rw [em2, hrec2.1.outside k (by omega)]
          exact hlo k hk1 hk2
        · intro k hk1 hk2
          rw [em2]
          exact hrec2.1.forall_mem (fun e => key (elem data4 pt.2.1) ≤ key e)
            (by intro k hk1 hk2; exact hhi k (by omega) hk2) k (by omega) hk2
      · rw [if_neg hlr]
        have hrec1 := ih pt.1 (pt.2.1 + 1) b limit1 true true (by omega) hbt (by omega)
          (by
            intro _ k hk1 hk2
            have e : pt.2.1 + 1 - 1 = pt.2.1 := by omega
            rw [e]
            exact q5 k (by omega) hk2)
        generalize pdqsort_loop less fuel pt.1 (pt.2.1 + 1) b limit1 true true = data4 at hrec1 ⊢
        have em : elem data4 pt.2.1 = elem pt.1 pt.2.1 := hrec1.1.outside _ (by omega)
        have hhi : ∀ k, pt.2.1 < k → k < b → key (elem data4 pt.2.1) ≤ key (elem data4 k) := by
          intro k hk1 hk2
          rw [em]
          exact hrec1.1.forall_mem (fun e => key (elem pt.1 pt.2.1) ≤ key e)
            (by intro k hk1 hk2; exact q5 k (by omega) hk2) k (by omega) hk2
        have hlo : ∀ k, a ≤ k → k < pt.2.1 → key (elem data4 k) ≤ key (elem data4 pt.2.1) := by
          intro k hk1 hk2
          rw [em, hrec1.1.outside k (by omega)]
          have := q4 k hk1 hk2
          omega
        have hrec2 := ih data4 a pt.2.1 limit1 (decide (b - pt.2.1 ≥ (b - a) / 8)) pt.2.2
          q2 (by rw [hrec1.1.length]; omega) (by omega)
          (by
            intro ha k hk1 hk2
            rw [hrec1.1.outside (a - 1) (by omega), hrec1.1.outside k (by omega)]
            exact hlbt ha k hk1 (by omega))
        generalize pdqsort_loop less fuel data4 a pt.2.1 limit1
          (decide (b - pt.2.1 ≥ (b - a) / 8)) pt.2.2 = data5 at hrec2 ⊢
        refine ⟨r14.trans ((hrec1.1.mono (by omega) (le_refl _)).trans
          (hrec2.1.mono (le_refl _) (by omega))), ?_⟩
        have em2 : elem data5 pt.2.1 = elem data4 pt.2.1 := hrec2.1.outside _ (by omega)
        apply SortedOn.glue hrec2.2 (hrec1.2.of_rearr_outside hrec2.1 (Or.inl (by omega)))
        · intro k hk1 hk2
          rw [em2]
          exact hrec2.1.forall_mem (fun e => key e ≤ key (elem data4 pt.2.1)) hlo k hk1 hk2
        · intro k hk1 hk2
          rw [em2, hrec2.1.outside k (by omega)]
          exact hhi k hk1 hk2

theorem pdqsort_func_spec {less : α → α → Bool} {key : α → Int} (hless : KeyOrder less key)
    (l : List α) (limit : Nat) :
    Rearr 0 l.length l (pdqsort_func less l 0 l.length limit) ∧
      SortedOn key (pdqsort_func less l 0 l.length limit) 0 l.length := by
  unfold pdqsort_func
  exact pdqsort_loop_spec hless _ l 0 l.length limit true true (Nat.zero_le _) (le_refl _)
    (le_refl _) (by intro h; omega)

theorem Slice_perm {less : α → α → Bool} {key : α → Int} (hless : KeyOrder less key)
    (x : List α) : (Slice x less).Perm x := by
  unfold Slice
  exact (pdqsort_func_spec hless x _).1.perm

theorem Slice_sorted {less : α → α → Bool} {key : α → Int} (hless : KeyOrder less key)
    (x : List α) : (Slice x less).Pairwise (fun p q => key p ≤ key q) := by
  have h := pdqsort_func_spec hless x (bitsLen x.length)
  have hlen : (Slice x less).length = x.length := h.1.length
  rw [List.pairwise_iff_getElem]
  intro i j hi hj hij
  have := h.2 i j (Nat.zero_le _) (by omega) (by rw [← hlen]; exact hj)
  rw [← elem_eq_getElem _ i hi, ← elem_eq_getElem _ j hj]
  exact this

end GoSort

namespace HackerNews

open GoSort

/-! ## The handlers -/

theorem lessByPoints_keyOrder : KeyOrder lessByPoints rankKey := by
  intro p q
  simp only [lessByPoints, rankKey, decide_eq_true_eq]
  omega

theorem collectPosts_fold (env : Env) (kv : KeyValue) (now : Int) (keys : List String) :
    ∀ acc : List HackerNewsPost,
    keys.foldl (collectStep env kv (now + (-24) * Hour)) acc =
      acc ++ keys.filterMap (windowItem env kv now) := by
  induction keys with
  | nil => intro acc; simp
  | cons key rest ih =>
    intro acc
    rw [List.foldl_cons, ih, List.filterMap_cons]
    unfold windowItem collectStep KeyValue.Get
    cases hd : kv.data key with
    | none => simp
    | some v =>
      simp only []
      by_cases hk : key = "hn_ids_latest"
      · simp [hk]
      · simp only [hk, if_false]
        cases hu : env.unmarshalPost v with
        | error e => simp
        | ok p =>
          simp only []
          have e : (p.Timestamp > now + (-24) * Hour) ↔ (now - 24 * Hour < p.Timestamp) := by
            constructor <;> intro h <;> omega
          by_cases hw : now - 24 * Hour < p.Timestamp
          · have hw' := e.2 hw
            rw [if_pos hw', if_pos hw]
            simp
          · have hw' : ¬ (p.Timestamp > now + (-24) * Hour) := fun h => hw (e.1 h)
            rw [if_neg hw', if_neg hw]

theorem collectPosts_eq (env : Env) (kv : KeyValue) (now : Int) (keys : List String) :
    collectPosts env kv (now + (-24) * Hour) keys = keys.filterMap (windowItem env kv now) := by
  unfold collectPosts
  rw [collectPosts_fold]
  simp

theorem rankedPosts_perm (env : Env) (kv : KeyValue) (now : Int) (keys : List String) :
    (rankedPosts env kv now keys).Perm (collectPosts env kv (now + (-24) * Hour) keys) := by
  unfold rankedPosts
  exact Slice_perm lessByPoints_keyOrder _

theorem sortByScore_written (env : Env) (kv : KeyValue) (obj : ObjectStore) (now : Int)
    (keys : List String) (report : String)
    (hm : env.marshalIndentPosts (rankedPosts env kv now keys) = Except.ok report)
    (hp : obj.putStringError (objName env now) report = none) :
    (sortByScore env (Except.ok keys) kv obj now).written = some (objName env now, report) := by
  unfold sortByScore
  simp only [hm, hp]

theorem sortByScore_written_inv (env : Env) (kv : KeyValue) (obj : ObjectStore) (now : Int)
    (keysRes : Except String (List String)) (name report : String)
    (h : (sortByScore env keysRes kv obj now).written = some (name, report)) :
    ∃ keys, keysRes = Except.ok keys ∧
      env.marshalIndentPosts (rankedPosts env kv now keys) = Except.ok report := by
  unfold sortByScore at h
  cases keysRes with
  | error e => simp at h
  | ok keys =>
    refine ⟨keys, rfl, ?_⟩
    simp only [] at h
    cases hm : env.marshalIndentPosts (rankedPosts env kv now keys) with
    | error e => rw [hm] at h; simp at h
    | ok r =>
      rw [hm] at h
      simp only [] at h
      cases hp : obj.putStringError (objName env now) r with
      | some e => rw [hp] at h; simp at h
      | none =>
        rw [hp] at h
        simp only [Option.some.injEq, Prod.mk.injEq] at h
        rw [h.2]

/-- C1. Rank correctness of `sortByScore`: for every bucket content, key
enumeration and build time, the posts that are serialised into the snapshot
are a permutation of the posts retained by the window filter, their scores
are non-increasing from first to last, and what `PutString` stores is the
serialisation of exactly that sequence. -/
theorem sortByScore_rank_correct (env : Env) (kv : KeyValue) (obj : ObjectStore) (now : Int)
    (keys : List String) :
    (rankedPosts env kv now keys).Perm (collectPosts env kv (now + (-24) * Hour) keys) ∧
    (rankedPosts env kv now keys).Pairwise (fun p q => q.Points ≤ p.Points) ∧
    (∀ report, env.marshalIndentPosts (rankedPosts env kv now keys) = Except.ok report →
      obj.putStringError (objName env now) report = none →
      (sortByScore env (Except.ok keys) kv obj now).written = some (objName env now, report)) ∧
    (∀ name report, (sortByScore env (Except.ok keys) kv obj now).written = some (name, report) →
      env.marshalIndentPosts (rankedPosts env kv now keys) = Except.ok report) := by
  refine ⟨rankedPosts_perm env kv now keys, ?_, ?_, ?_⟩
  · have h := Slice_sorted lessByPoints_keyOrder (collectPosts env kv (now + (-24) * Hour) keys)
    unfold rankedPosts
    refine h.imp ?_
    intro p q hpq
    simp only [rankKey] at hpq
    omega
  · intro report hm hp
    exact sortByScore_written env kv obj now keys report hm hp
  · intro name report h
    obtain ⟨keys', hk, hm⟩ := sortByScore_written_inv env kv obj now _ name report h
    cases hk
    exact hm

theorem rankedPosts_mem_iff (env : Env) (kv : KeyValue) (now : Int) (keys : List String)
    (p : HackerNewsPost) :
    p ∈ rankedPosts env kv now keys ↔
      ∃ key, key ∈ keys ∧ key ≠ "hn_ids_latest" ∧ ∃ v, kv.data key = some v ∧
        env.unmarshalPost v = Except.ok p ∧ now - 24 * Hour < p.Timestamp := by
  have hperm : (rankedPosts env kv now keys).Perm (keys.filterMap (windowItem env kv now)) := by
    rw [← collectPosts_eq]
    exact rankedPosts_perm env kv now keys
  rw [hperm.mem_iff, List.mem_filterMap]
  constructor
  · rintro ⟨key, hk, hw⟩
    refine ⟨key, hk, ?_⟩
    unfold windowItem at hw
    by_cases hr : key = "hn_ids_latest"
    · simp [hr] at hw
    · refine ⟨hr, ?_⟩
      simp only [hr, if_false] at hw
      cases hd : kv.data key with
      | none => rw [hd] at hw; simp at hw
      | some v =>
        rw [hd] at hw
        simp only [] at hw
        refine ⟨v, rfl, ?_⟩
        cases hu : env.unmarshalPost v with
        | error e => rw [hu] at hw; simp at hw
        | ok q =>
          rw [hu] at hw
          simp only [] at hw
          by_cases hq : now - 24 * Hour < q.Timestamp
          · simp only [hq, if_true, Option.some.injEq] at hw
            subst hw
            exact ⟨rfl, hq⟩
          · simp [hq] at hw
  · rintro ⟨key, hk, hr, v, hd, hu, hw⟩
    refine ⟨key, hk, ?_⟩
    unfold windowItem
    simp [hr, hd, hu, hw]

/-- C2. Window correctness of `sortByScore`: for every bucket content, key
enumeration and build time `now`, the posts that the handler serialises are,
with multiplicity, the items that the enumerated keys contribute; a post is
among them exactly when it is the decoded value of an enumerated key other
than the reserved one and was published strictly after `now - 24h`; the
handler stores the serialisation of exactly these posts as the snapshot
whenever serialising and `PutString` succeed, and whatever snapshot it stores
is the serialisation of a sequence with exactly these posts. -/
theorem sortByScore_window_correct (env : Env) (kv : KeyValue) (obj : ObjectStore) (now : Int)
    (keys : List String) :
    (rankedPosts env kv now keys).Perm (keys.filterMap (windowItem env kv now)) ∧
    (∀ p, p ∈ rankedPosts env kv now keys ↔
      ∃ key, key ∈ keys ∧ key ≠ "hn_ids_latest" ∧ ∃ v, kv.data key = some v ∧
        env.unmarshalPost v = Except.ok p ∧ now - 24 * Hour < p.Timestamp) ∧
    (∀ report, env.marshalIndentPosts (rankedPosts env kv now keys) = Except.ok report →
      obj.putStringError (objName env now) report = none →
      (sortByScore env (Except.ok keys) kv obj now).written = some (objName env now, report)) ∧
    (∀ name report, (sortByScore env (Except.ok keys) kv obj now).written = some (name, report) →
      ∃ posts, env.marshalIndentPosts posts = Except.ok report ∧
        posts.Perm (keys.filterMap (windowItem env kv now)) ∧
        ∀ p, p ∈ posts ↔
          ∃ key, key ∈ keys ∧ key ≠ "hn_ids_latest" ∧ ∃ v, kv.data key = some v ∧
            env.unmarshalPost v = Except.ok p ∧ now - 24 * Hour < p.Timestamp) := by
  have hperm : (rankedPosts env kv now keys).Perm (keys.filterMap (windowItem env kv now)) := by
    rw [← collectPosts_eq]
    exact rankedPosts_perm env kv now keys
  refine ⟨hperm, rankedPosts_mem_iff env kv now keys, ?_, ?_⟩
  · intro report hm hp
    exact sortByScore_written env kv obj now keys report hm hp
  · intro name report h
    obtain ⟨keys', hk, hm⟩ := sortByScore_written_inv env kv obj now _ name report h
    cases hk
    exact ⟨rankedPosts env kv now keys, hm, hperm, rankedPosts_mem_iff env kv now keys⟩

theorem Slice_eq_insertionSort {α : Type} [Inhabited α] (less : α → α → Bool) (x : List α)
    (h : x.length ≤ 12) : Slice x less = insertionSort_func less x 0 x.length := by
  unfold Slice pdqsort_func
  simp only [Nat.sub_zero]
  cases hn : x.length with
  | zero => simp [pdqsort_loop, insertionSort_func]
  | succ n =>
    unfold pdqsort_loop
    simp only [Nat.sub_zero]
    rw [if_pos (by omega)]

theorem Slice_stable_small {α : Type} [Inhabited α] {less : α → α → Bool} {key : α → Int}
    (hless : KeyOrder less key) (x : List α) (h : x.length ≤ 12) :
    Stable key x (Slice x less) := by
  rw [Slice_eq_insertionSort less x h]
  exact insertionSort_func_stable hless x 0 x.length (le_refl _)

theorem tiesKeepOrder_of_stable {retained ranked : List HackerNewsPost}
    (h : Stable rankKey retained ranked) : TiesKeepOrder retained ranked := by
  intro s
  have e : (fun p : HackerNewsPost => decide (p.Points = s)) =
      (fun p : HackerNewsPost => decide (rankKey p = -s)) := by
    funext p
    simp only [rankKey, decide_eq_decide]
    omega
  rw [e]
  exact h (-s)

/-- C8, as the code has it. Tie-break of `sortByScore` on short snapshots: when
at most 12 posts are retained, posts with equal score are serialised in the
order in which their keys were enumerated (`sort.Slice` then runs its
insertion sort); for longer sequences no order of equal scores is promised. -/
theorem sortByScore_ties_stable_upto_12 (env : Env) (kv : KeyValue) (now : Int)
    (keys : List String)
    (h : (collectPosts env kv (now + (-24) * Hour) keys).length ≤ 12) :
    TiesKeepOrder (collectPosts env kv (now + (-24) * Hour) keys)
      (rankedPosts env kv now keys) := by
  unfold rankedPosts
  exact tiesKeepOrder_of_stable (Slice_stable_small lessByPoints_keyOrder _ h)

/-- Witness of C8 as amended: the first three posts of the example bucket. -/
theorem sortByScore_ties_stable_upto_12_witness :
    (collectPosts tieEnv tieKV (2000 + (-24) * Hour) (tieKeys.take 3)).length ≤ 12 ∧
    TiesKeepOrder (collectPosts tieEnv tieKV (2000 + (-24) * Hour) (tieKeys.take 3))
      (rankedPosts tieEnv tieKV 2000 (tieKeys.take 3)) :=
  ⟨by decide, sortByScore_ties_stable_upto_12 tieEnv tieKV 2000 (tieKeys.take 3) (by decide)⟩

/-- C8, counterexample. Thirteen posts enumerated in the order 1, ..., 13, the
first twelve with score 1 and the last with score 2, all inside the window:
the snapshot lists the posts of score 1 in the order 7, 3, 4, 5, 6, 1, 8, 9,
10, 11, 12, 2, not in their enumeration order. -/
theorem sortByScore_ties_not_stable_cex :
    (rankedPosts tieEnv tieKV 2000 tieKeys).map (fun p => p.ID) =
      [13, 7, 3, 4, 5, 6, 1, 8, 9, 10, 11, 12, 2] ∧
    ¬ TiesKeepOrder (collectPosts tieEnv tieKV (2000 + (-24) * Hour) tieKeys)
      (rankedPosts tieEnv tieKV 2000 tieKeys) := by
  refine ⟨by decide, ?_⟩
  intro h
  have h1 := h 1
  revert h1
  decide

/-- The example of the specification for rank correctness: retained scores
5, 90, 12 are serialised as 90, 12, 5. -/
theorem sortByScore_rank_example :
    (collectPosts (tableEnv rankTable) (tableKV rankTable) (2000 + (-24) * Hour)
      (tableKeys rankTable)).map (fun p => p.Points) = [5, 90, 12] ∧
    (rankedPosts (tableEnv rankTable) (tableKV rankTable) 2000 (tableKeys rankTable)).map
      (fun p => p.Points) = [90, 12, 5] := by
  decide

/-- The example of the specification for window correctness: of posts
published 1, 23, 25 and exactly 24 hours before the build time, the snapshot
holds the first two (ranked by score) and neither of the others, nor the
reserved key. -/
theorem sortByScore_window_example :
    (rankedPosts (tableEnv windowTable) (tableKV windowTable) (100 * Hour)
      (tableKeys windowTable)).map (fun p => p.ID) = [2, 1] := by
  decide

theorem latestLoop_firstMax : ∀ (rest pre : List ObjectInfo) (m : ObjectInfo) (k : Nat),
    pre ≠ [] → FirstMax pre k m →
    ∃ k' m', latestLoop pre.length (some m) rest = some m' ∧ FirstMax (pre ++ rest) k' m' := by
  intro rest
  induction rest with
  | nil =>
    intro pre m k _ h
    exact ⟨k, m, by simp [latestLoop], by simpa using h⟩
  | cons o rest ih =>
    intro pre m k hpre h
    obtain ⟨h1, h2, h3⟩ := h
    have hlen : pre.length ≠ 0 := by
      intro h0; exact hpre (List.length_eq_zero.1 h0)
    have hk : k < pre.length := by
      by_contra hc
      rw [List.getElem?_eq_none (by omega)] at h1
      simp at h1
    unfold latestLoop
    simp only [hlen, decide_False, Bool.false_or]
    have e : pre ++ o :: rest = (pre ++ [o]) ++ rest := by simp
    have hl : (pre ++ [o]).length = pre.length + 1 := by simp
    by_cases hgt : o.ModTime > m.ModTime
    · simp only [hgt, decide_True, if_true]
      have := ih (pre ++ [o]) o pre.length (by simp)
        ⟨by simp, by
          intro j o' hj
          rcases Nat.lt_or_ge j pre.length with hj1 | hj1
          · rw [List.getElem?_append_left hj1] at hj
            have := h2 j o' hj
            omega
          · rw [List.getElem?_append_right hj1] at hj
            rcases Nat.eq_zero_or_pos (j - pre.length) with h0 | h0
            · rw [h0] at hj
              simp at hj
              subst hj; exact le_refl _
            · rw [List.getElem?_eq_none (by simp; omega)] at hj
              simp at hj, by
          intro j o' hj1 hj
          rw [List.getElem?_append_left hj1] at hj
          have := h2 j o' hj
          omega⟩
      rw [hl] at this
      rw [e]
      exact this
    · simp only [hgt, decide_False, if_false]
      have := ih (pre ++ [o]) m k (by simp)
        ⟨by rw [List.getElem?_append_left hk]; exact h1, by
          intro j o' hj
          rcases Nat.lt_or_ge j pre.length with hj1 | hj1
          · rw [List.getElem?_append_left hj1] at hj
            exact h2 j o' hj
          · rw [List.getElem?_append_right hj1] at hj
            rcases Nat.eq_zero_or_pos (j - pre.length) with h0 | h0
            · rw [h0] at hj
              simp at hj
              subst hj; omega
            · rw [List.getElem?_eq_none (by simp; omega)] at hj
              simp at hj, by
          intro j o' hj1 hj
          rw [List.getElem?_append_left (by omega)] at hj
          exact h3 j o' hj1 hj⟩
      rw [hl] at this
      rw [e]
      exact this

/-- C7, as the code has it. Latest-snapshot selection of `listByScoreCount`: for
every non-empty enumeration the loop selects an object of the enumeration
with the maximal modification time, and when several objects share that time
it is the first of them in enumeration order (an object replaces the current
choice only when it is strictly more recent). -/
theorem selectLatest_first_max (objs : List ObjectInfo) (h : objs ≠ []) :
    ∃ k sel, selectLatest objs = some sel ∧ FirstMax objs k sel := by
  cases objs with
  | nil => exact absurd rfl h
  | cons o rest =>
    have := latestLoop_firstMax rest [o] o 0 (by simp)
      ⟨by simp, by
        intro j o' hj
        cases j with
        | zero => simp at hj; subst hj; exact le_refl _
        | succ j => simp at hj, by intro j o' hj; omega⟩
    unfold selectLatest latestLoop
    simpa using this

/-- Witness of C7 as amended: the two tied snapshots. -/
theorem selectLatest_first_max_witness :
    tiedObjects ≠ [] ∧ ∃ k sel, selectLatest tiedObjects = some sel ∧ FirstMax tiedObjects k sel :=
  ⟨by decide, selectLatest_first_max tiedObjects (by decide)⟩

/-- C7, counterexample. Of two snapshots with the same modification time the
first one enumerated is selected, and it is not the last object with the
maximal modification time. -/
theorem selectLatest_last_wins_cex :
    selectLatest tiedObjects = some { Name := "hn_posts_2024-01-01", ModTime := 5 } ∧
    ¬ ∃ k sel, selectLatest tiedObjects = some sel ∧ LastMax tiedObjects k sel := by
  refine ⟨by decide, ?_⟩
  rintro ⟨k, sel, hs, h1, _, h3⟩
  have hsel : selectLatest tiedObjects = some { Name := "hn_posts_2024-01-01", ModTime := 5 } := by
    decide
  rw [hsel] at hs
  cases hs
  have hk : k = 0 := by
    match k, h1 with
    | 0, _ => rfl
    | 1, h1 => simp [tiedObjects] at h1
    | k + 2, h1 => simp [tiedObjects] at h1
  subst hk
  have := h3 1 { Name := "hn_posts_2024-01-02", ModTime := 5 } (by omega) (by simp [tiedObjects])
  simp at this

theorem selectLatest_ne_nil (objs : List ObjectInfo) (sel : ObjectInfo)
    (h : selectLatest objs = some sel) : objs.length ≠ 0 := by
  cases objs with
  | nil => simp [selectLatest, latestLoop] at h
  | cons o rest => simp

theorem truncate_eq (posts : List HackerNewsPost) (n : Int) (hn : 1 ≤ n) :
    (if n < (posts.length : Int) then posts.take n.toNat else posts) =
      posts.take (min n.toNat posts.length) := by
  split_ifs with h
  · have : min n.toNat posts.length = n.toNat := by omega
    rw [this]
  · have : min n.toNat posts.length = posts.length := by omega
    rw [this, List.take_length]

/-- C3. Truncation in `listByScoreCount`: for every count text that `Atoi`
reads as `n ≥ 1` and every latest snapshot that is retrieved and decoded to
`posts`, the reply is the serialisation of the count `min(n, len)` together
with the first `min(n, len)` posts in their stored order. -/
theorem listByScoreCount_truncates (env : Env) (obj : ObjectStore) (countStr : String) (n : Int)
    (objs : List ObjectInfo) (latest : ObjectInfo) (objData : String)
    (posts : List HackerNewsPost) (response : String)
    (hc : Atoi countStr = (n, none)) (hn : 1 ≤ n) (hl : obj.list = Except.ok objs)
    (hsel : selectLatest objs = some latest) (hg : obj.getBytes latest.Name = Except.ok objData)
    (hu : env.unmarshalPosts objData = Except.ok posts)
    (hm : env.marshalTop (min n.toNat posts.length) (posts.take (min n.toNat posts.length)) =
      Except.ok response) :
    listByScoreCount env obj countStr = Exec.done (Reply.respond response) := by
  unfold listByScoreCount
  simp only [hc, hl, hsel, hg, hu]
  have h1 : ¬ ((none : Option NumError).isSome || decide (n ≤ 0)) = true := by
    simp; omega
  rw [if_neg h1, if_neg (selectLatest_ne_nil objs latest hsel), truncate_eq posts n hn]
  have hlen : (posts.take (min n.toNat posts.length)).length = min n.toNat posts.length := by
    rw [List.length_take]; omega
  rw [hlen, hm]

/-- Witness of C3: `top(2)` on the stored snapshot of five posts replies with
count 2 and the posts 1 and 2. -/
theorem listByScoreCount_truncates_witness :
    listByScoreCount (exampleEnv storyRecord) exampleObj "2" =
      Exec.done (Reply.respond "count=2 ids=1,2") :=
  listByScoreCount_truncates (exampleEnv storyRecord) exampleObj "2" 2
    [{ Name := "hn_posts_1970-01-01", ModTime := 7 }] { Name := "hn_posts_1970-01-01", ModTime := 7 }
    "blob" [examplePost 1 50 1000, examplePost 2 40 1000, examplePost 3 30 1000,
      examplePost 4 20 1000, examplePost 5 10 1000] "count=2 ids=1,2"
    (by decide) (by decide) rfl (by decide) rfl rfl rfl

/-- C6, the code at the failing inputs. `top` with the count texts `0` and `-5`
replies with the error code `500`, the code that the same handler uses when
the object store fails, whereas `processFetchedIDsReply` answers a malformed
id with the code `400`. -/
theorem listByScoreCount_invalid_count_code (env : Env) (obj : ObjectStore) (kv : KeyValue) :
    listByScoreCount env obj "0" =
      Exec.done (Reply.error "500" "Invalid count parameter. Must be a positive integer") ∧
    listByScoreCount env obj "-5" =
      Exec.done (Reply.error "500" "Invalid count parameter. Must be a positive integer") ∧
    (∀ e, obj.list = Except.error e →
      listByScoreCount env obj "3" =
        Exec.done (Reply.error "500" "Failed to access stored objects")) ∧
    processFetchedIDsReply env kv "abc" = Exec.done (kv, some (Reply.error "400" "Invalid ID")) := by
  have h0 : Atoi "0" = (0, none) := by decide
  have h5 : Atoi "-5" = (-5, none) := by decide
  have h3 : Atoi "3" = (3, none) := by decide
  have ha : Atoi "abc" = (0, some NumError.ErrSyntax) := by decide
  refine ⟨?_, ?_, ?_, ?_⟩
  · unfold listByScoreCount
    simp only [h0]
    simp
  · unfold listByScoreCount
    simp only [h5]
    simp
  · intro e he
    unfold listByScoreCount
    simp only [h3, he]
    simp
  · unfold processFetchedIDsReply
    simp only [ha]

theorem processHackerNewsID_skip_result (env : Env) (id : Int) (kv : KeyValue) (body : String)
    (post : Record) (hg : env.httpGet (itemURL id) = Except.ok body)
    (hd : env.decodeRecord body = Except.ok post)
    (hs : (isStory (post "type") && notNil (post "title") && notNil (post "score") &&
      notNil (post "time")) = false) :
    processHackerNewsID env id kv =
      Exec.done (kv, Except.error ("skipped non-story item: " ++ toString id)) := by
  unfold processHackerNewsID
  simp only [hg, hd, hs]
  simp

/-- C4, as the code has it. Skip classification of `processHackerNewsID`: when
the fetched record is not of type story or lacks title, score or time,
processing leaves the bucket unchanged and returns the error
`skipped non-story item: <id>`; the request-reply handler answers with the
error code `500` and that message, the fire-and-forget handler answers
nothing. -/
theorem processHackerNewsID_skip (env : Env) (id : Int) (kv : KeyValue) (body : String)
    (post : Record) (hg : env.httpGet (itemURL id) = Except.ok body)
    (hd : env.decodeRecord body = Except.ok post)
    (hs : (isStory (post "type") && notNil (post "title") && notNil (post "score") &&
      notNil (post "time")) = false) :
    processHackerNewsID env id kv =
      Exec.done (kv, Except.error ("skipped non-story item: " ++ toString id)) ∧
    (∀ data, Atoi data = (id, none) →
      processFetchedIDsReply env kv data =
        Exec.done (kv, some (Reply.error "500" ("skipped non-story item: " ++ toString id)))) ∧
    (∀ data, (Atoi data).1 = id → processFetchedIDs env kv data = Exec.done (kv, none)) := by
  have h := processHackerNewsID_skip_result env id kv body post hg hd hs
  refine ⟨h, ?_, ?_⟩
  · intro data ha
    unfold processFetchedIDsReply
    simp only [ha, h]
  · intro data ha
    unfold processFetchedIDs
    simp only [ha, h]

/-- Witness of C4 as amended: the record without `score`, id 1. -/
theorem processHackerNewsID_skip_witness :
    processHackerNewsID (exampleEnv noScoreRecord) 1 emptyKV =
      Exec.done (emptyKV, Except.error ("skipped non-story item: " ++ toString (1 : Int))) ∧
    (∀ data, Atoi data = (1, none) →
      processFetchedIDsReply (exampleEnv noScoreRecord) emptyKV data =
        Exec.done (emptyKV,
          some (Reply.error "500" ("skipped non-story item: " ++ toString (1 : Int))))) ∧
    (∀ data, (Atoi data).1 = 1 →
      processFetchedIDs (exampleEnv noScoreRecord) emptyKV data = Exec.done (emptyKV, none)) :=
  processHackerNewsID_skip (exampleEnv noScoreRecord) 1 emptyKV "body" noScoreRecord rfl rfl
    (by decide)

/-- C4, counterexample. For id 1 and a fetched story record without `score`,
`processHackerNewsID` returns an error and the request-reply handler answers
with an error of code `500`. -/
theorem processHackerNewsID_skip_is_error_cex :
    processHackerNewsID (exampleEnv noScoreRecord) 1 emptyKV =
      Exec.done (emptyKV, Except.error "skipped non-story item: 1") ∧
    processFetchedIDsReply (exampleEnv noScoreRecord) emptyKV "1" =
      Exec.done (emptyKV, some (Reply.error "500" "skipped non-story item: 1")) := by
  constructor
  · rfl
  · rfl

theorem upsert_upsert (kv : KeyValue) (key value : String) :
    upsert (upsert kv key value) key value = upsert kv key value := by
  unfold upsert
  simp only [KeyValue.mk.injEq, and_true]
  funext k
  split_ifs <;> rfl

/-- What a run of `processHackerNewsID` does to the bucket: nothing, or, when
the record is a story whose Item serialises to `pb` and `Put` succeeds, an
upsert of `pb` under the key of the id, whatever the bucket held before. -/
theorem processHackerNewsID_cases (env : Env) (id : Int) (kv : KeyValue) :
    ((∀ kv2 : KeyValue, kv2.putError = kv.putError →
        ∃ r, processHackerNewsID env id kv2 = Exec.done (kv2, Except.error r)) ∨
      (∀ kv2 : KeyValue, kv2.putError = kv.putError →
        ∃ m, processHackerNewsID env id kv2 = Exec.panicked m)) ∨
    ∃ body post p pb, env.httpGet (itemURL id) = Except.ok body ∧
      env.decodeRecord body = Except.ok post ∧ buildItem env id post = some p ∧
      env.marshalPost p = Except.ok pb ∧
      ∀ kv2 : KeyValue, kv2.putError = kv.putError →
        processHackerNewsID env id kv2 = Exec.done (upsert kv2 (itemKey id) pb, Except.ok pb) := by
  cases hg : env.httpGet (itemURL id) with
  | error e =>
    left; left; intro kv2 _
    exact ⟨_, by unfold processHackerNewsID; simp only [hg]; rfl⟩
  | ok body =>
    cases hd : env.decodeRecord body with
    | error e =>
      left; left; intro kv2 _
      exact ⟨_, by unfold processHackerNewsID; simp only [hg, hd]; rfl⟩
    | ok post =>
      by_cases hs : (isStory (post "type") && notNil (post "title") && notNil (post "score") &&
          notNil (post "time")) = true
      · cases ht : assertFloat64 (post "time") with
        | none =>
          left; right; intro kv2 _
          exact ⟨_, by unfold processHackerNewsID; simp only [hg, hd, hs, ht, if_true]; rfl⟩
        | some sec =>
          cases hti : assertString (post "title") with
          | none =>
            left; right; intro kv2 _
            exact ⟨_, by unfold processHackerNewsID; simp only [hg, hd, hs, ht, hti, if_true]; rfl⟩
          | some title =>
            cases hsc : assertFloat64 (post "score") with
            | none =>
              left; right; intro kv2 _
              exact ⟨_, by
                unfold processHackerNewsID; simp only [hg, hd, hs, ht, hti, hsc, if_true]; rfl⟩
            | some score =>
              cases hm : env.marshalPost (HackerNewsPost.mk id title (env.sprintV (post "url"))
                  score (timeUnix sec 0)) with
              | error e =>
                left; left; intro kv2 _
                exact ⟨_, by
                  unfold processHackerNewsID
                  simp only [hg, hd, hs, ht, hti, hsc, hm, if_true]; rfl⟩
              | ok pb =>
                cases hp : kv.putError (itemKey id) pb with
                | some e =>
                  left; left; intro kv2 h2
                  exact ⟨_, by
                    unfold processHackerNewsID KeyValue.Put
                    simp only [hg, hd, hs, ht, hti, hsc, hm, h2, hp, if_true]; rfl⟩
                | none =>
                  right
                  refine ⟨body, post, _, pb, rfl, hd, ?_, hm, ?_⟩
                  · unfold buildItem
                    simp only [ht, hti, hsc]
                  · intro kv2 h2
                    unfold processHackerNewsID KeyValue.Put upsert
                    simp only [hg, hd, hs, ht, hti, hsc, hm, h2, hp, if_true]
      · left; left; intro kv2 _
        have hs' : (isStory (post "type") && notNil (post "title") && notNil (post "score") &&
            notNil (post "time")) = false := by simpa using hs
        exact ⟨_, processHackerNewsID_skip_result env id kv2 body post hg hd hs'⟩

theorem notNil_of_assertFloat64 (v : JSONValue) (n : Int) (h : assertFloat64 v = some n) :
    notNil v = true := by
  cases v with
  | number m => rfl
  | _ => simp [assertFloat64] at h

theorem notNil_of_assertString (v : JSONValue) (s : String) (h : assertString v = some s) :
    notNil v = true := by
  cases v with
  | string t => rfl
  | _ => simp [assertString] at h

/-- A story record whose Item serialises to `pb` is stored: when `Put`
succeeds, processing returns `pb` and upserts it under the key of the id. -/
theorem processHackerNewsID_stores (env : Env) (id : Int) (kv : KeyValue) (body : String)
    (post : Record) (p : HackerNewsPost) (pb : String)
    (hg : env.httpGet (itemURL id) = Except.ok body)
    (hd : env.decodeRecord body = Except.ok post) (hst : isStory (post "type") = true)
    (hb : buildItem env id post = some p) (hm : env.marshalPost p = Except.ok pb)
    (hp : kv.putError (itemKey id) pb = none) :
    processHackerNewsID env id kv = Exec.done (upsert kv (itemKey id) pb, Except.ok pb) := by
  unfold buildItem at hb
  cases ht : assertFloat64 (post "time") with
  | none => simp [ht] at hb
  | some sec =>
    cases hti : assertString (post "title") with
    | none => simp [ht, hti] at hb
    | some title =>
      cases hsc : assertFloat64 (post "score") with
      | none => simp [ht, hti, hsc] at hb
      | some score =>
        simp only [ht, hti, hsc, Option.some.injEq] at hb
        subst hb
        have h1 := notNil_of_assertFloat64 _ _ ht
        have h2 := notNil_of_assertString _ _ hti
        have h3 := notNil_of_assertFloat64 _ _ hsc
        unfold processHackerNewsID KeyValue.Put upsert
        simp only [hg, hd, hst, h1, h2, h3, ht, hti, hsc, hm, hp, Bool.and_self, if_true]

/-- C5. Idempotency of `processHackerNewsID`: for every id, bucket and upstream
behaviour, the bucket after processing the id twice equals the bucket after
processing it once; no key other than the key of the id changes; when
processing returns a stored text, that text is the serialisation of the Item
built from the upstream record and is what the key of the id holds afterwards;
and a story record whose Item serialises is stored: when `Put` succeeds,
processing returns the serialisation and the key of the id holds it
afterwards, whatever the bucket held before. -/
theorem processHackerNewsID_idempotent (env : Env) (id : Int) (kv : KeyValue) :
    bucketAfter env id (bucketAfter env id kv) = bucketAfter env id kv ∧
    (∀ k, k ≠ itemKey id → (bucketAfter env id kv).data k = kv.data k) ∧
    (∀ pb kv', processHackerNewsID env id kv = Exec.done (kv', Except.ok pb) →
      kv'.data (itemKey id) = some pb ∧
      ∃ body post p, env.httpGet (itemURL id) = Except.ok body ∧
        env.decodeRecord body = Except.ok post ∧ buildItem env id post = some p ∧
        env.marshalPost p = Except.ok pb) ∧
    (∀ body post p pb, env.httpGet (itemURL id) = Except.ok body →
      env.decodeRecord body = Except.ok post → isStory (post "type") = true →
      buildItem env id post = some p → env.marshalPost p = Except.ok pb →
      kv.putError (itemKey id) pb = none →
      processHackerNewsID env id kv = Exec.done (upsert kv (itemKey id) pb, Except.ok pb) ∧
      (bucketAfter env id kv).data (itemKey id) = some pb ∧
      (bucketAfter env id (bucketAfter env id kv)).data (itemKey id) = some pb) := by
  have hstore : ∀ body post p pb, env.httpGet (itemURL id) = Except.ok body →
      env.decodeRecord body = Except.ok post → isStory (post "type") = true →
      buildItem env id post = some p → env.marshalPost p = Except.ok pb →
      kv.putError (itemKey id) pb = none →
      processHackerNewsID env id kv = Exec.done (upsert kv (itemKey id) pb, Except.ok pb) ∧
      (bucketAfter env id kv).data (itemKey id) = some pb := by
    intro body post p pb hg hd hst hb hm hp
    have h := processHackerNewsID_stores env id kv body post p pb hg hd hst hb hm hp
    refine ⟨h, ?_⟩
    unfold bucketAfter
    rw [h]
    simp [upsert]
  have hidem : bucketAfter env id (bucketAfter env id kv) = bucketAfter env id kv := by
    rcases processHackerNewsID_cases env id kv with (h | h) | ⟨body, post, p, pb, hg, hd, hb, hm, h⟩
    · have e : ∀ kv2 : KeyValue, kv2.putError = kv.putError → bucketAfter env id kv2 = kv2 := by
        intro kv2 h2
        obtain ⟨r, hr⟩ := h kv2 h2
        unfold bucketAfter; rw [hr]
      rw [e kv rfl, e kv rfl]
    · have e : ∀ kv2 : KeyValue, kv2.putError = kv.putError → bucketAfter env id kv2 = kv2 := by
        intro kv2 h2
        obtain ⟨m, hr⟩ := h kv2 h2
        unfold bucketAfter; rw [hr]
      rw [e kv rfl, e kv rfl]
    · have e : ∀ kv2 : KeyValue, kv2.putError = kv.putError →
          bucketAfter env id kv2 = upsert kv2 (itemKey id) pb := by
        intro kv2 h2
        unfold bucketAfter; rw [h kv2 h2]
      rw [e kv rfl, e (upsert kv (itemKey id) pb) rfl, upsert_upsert]
  refine ⟨hidem, ?_, ?_, ?_⟩
  · intro k hk
    rcases processHackerNewsID_cases env id kv with (h | h) | ⟨body, post, p, pb, hg, hd, hb, hm, h⟩
    · obtain ⟨r, hr⟩ := h kv rfl
      unfold bucketAfter; rw [hr]
    · obtain ⟨m, hr⟩ := h kv rfl
      unfold bucketAfter; rw [hr]
    · unfold bucketAfter; rw [h kv rfl]
      simp [upsert, hk]
  · intro pb' kv' hp
    rcases processHackerNewsID_cases env id kv with (h | h) | ⟨body, post, p, pb, hg, hd, hb, hm, h⟩
    · obtain ⟨r, hr⟩ := h kv rfl
      rw [hr] at hp
      simp at hp
    · obtain ⟨m, hr⟩ := h kv rfl
      rw [hr] at hp
      simp at hp
    · rw [h kv rfl] at hp
      simp only [Exec.done.injEq, Prod.mk.injEq, Except.ok.injEq] at hp
      obtain ⟨h1, h2⟩ := hp
      subst h1 h2
      exact ⟨by simp [upsert], body, post, p, hg, hd, hb, hm⟩
  · intro body post p pb hg hd hst hb hm hp
    obtain ⟨h1, h2⟩ := hstore body post p pb hg hd hst hb hm hp
    exact ⟨h1, h2, by rw [hidem]; exact h2⟩

/-- Witness of C5: id 1 with a story record, on a bucket that already holds
`old` under `hn_post_1`.  Processing returns the serialisation `post`, the
key holds it after one run and after two, and two runs leave the bucket of
one run. -/
theorem processHackerNewsID_idempotent_witness :
    staleKV.data "hn_post_1" = some "old" ∧
    itemKey 1 = "hn_post_1" ∧
    (processHackerNewsID (exampleEnv storyRecord) 1 staleKV =
        Exec.done (upsert staleKV (itemKey 1) "post", Except.ok "post") ∧
      (bucketAfter (exampleEnv storyRecord) 1 staleKV).data (itemKey 1) = some "post" ∧
      (bucketAfter (exampleEnv storyRecord) 1
        (bucketAfter (exampleEnv storyRecord) 1 staleKV)).data (itemKey 1) = some "post") ∧
    bucketAfter (exampleEnv storyRecord) 1 (bucketAfter (exampleEnv storyRecord) 1 staleKV) =
      bucketAfter (exampleEnv storyRecord) 1 staleKV :=
  ⟨rfl, rfl,
    (processHackerNewsID_idempotent (exampleEnv storyRecord) 1 staleKV).2.2.2 "body" storyRecord
      { ID := 1, Title := "A story", URL := "https://example.org", Points := 10,
        Timestamp := timeUnix 1700000000 0 } "post" rfl rfl rfl rfl rfl rfl,
    (processHackerNewsID_idempotent (exampleEnv storyRecord) 1 staleKV).1⟩

/-- The two delivery modes leave the same bucket for every payload that
`Atoi` reads without error. -/
theorem processFetchedIDs_bucket_eq_of_valid (env : Env) (kv : KeyValue) (data : String)
    (h : (Atoi data).2 = none) :
    bucketOf (processFetchedIDs env kv data) = bucketOf (processFetchedIDsReply env kv data) := by
  unfold processFetchedIDs processFetchedIDsReply
  simp only []
  generalize Atoi data = r at h ⊢
  obtain ⟨id, err⟩ := r
  simp only [] at h
  subst h
  simp only []
  cases hp : processHackerNewsID env id kv with
  | panicked m => rfl
  | done r =>
    obtain ⟨kv', res⟩ := r
    cases res with
    | error e => rfl
    | ok pb => rfl

/-- C9, the code at the failing input. For the payload `abc` and a Fetcher that
answers every request with a story record, the fire-and-forget handler goes
on with id 0 and stores `hn_post_0`, while the request-reply handler answers
`400` and leaves the bucket empty. -/
theorem processFetchedIDs_invalid_payload_diverges :
    (∃ kv', processFetchedIDs (exampleEnv storyRecord) emptyKV "abc" = Exec.done (kv', none) ∧
      kv'.data "hn_post_0" = some "post") ∧
    processFetchedIDsReply (exampleEnv storyRecord) emptyKV "abc" =
      Exec.done (emptyKV, some (Reply.error "400" "Invalid ID")) ∧
    emptyKV.data "hn_post_0" = none :=
  ⟨⟨_, rfl, rfl⟩, rfl, rfl⟩

/-- C10, the code at the failing input. For id 1 and a decoded story record
whose `title` is the number 123, the type assertion `post["title"].(string)`
panics: processing ends neither as skipped nor as stored nor with a returned
error. -/
theorem processHackerNewsID_panics_on_number_title :
    processHackerNewsID (exampleEnv numberTitleRecord) 1 emptyKV =
      Exec.panicked "interface conversion: interface {} is float64, not string" :=
  rfl

end HackerNews
